import Mathlib

/-!
Verification of the EchoLink capture-and-reduce pipeline.

This file gives a shallow embedding of the two core modules of the
EchoLink repository:

* `src/echolink/core/monitor.py` — `TextMonitor._notify_callbacks`,
  `TextMonitor.process_manual_text`: the length filter, the fingerprint
  deduplication cache with its half-capacity eviction, and the
  exception-isolated callback fan-out.
* `src/echolink/core/summarizer.py` — `TextSummarizer.clean_text`,
  `should_summarize`, `simple_summarize`, `summarize_text`,
  `process_for_voice`.

Texts are modelled as `List Char`.  Python's `re.sub` scans left to
right, replaces the leftmost non-overlapping match and continues after
the replaced match; each regex used by the source is embedded as a
structurally recursive scanner with exactly that behaviour, so that the
kernel can evaluate every definition on concrete inputs.
-/

set_option autoImplicit false
set_option maxRecDepth 16384

namespace EchoLink

/-- The backtick character (code-span delimiter in `clean_text`). -/
def tick : Char := Char.ofNat 96

/-- Python `str.isspace` / regex `\s` on the ASCII range: space, tab,
newline, carriage return, vertical tab, form feed. -/
def pyIsSpace (c : Char) : Bool :=
  c = ' ' || c = '\t' || c = '\n' || c = '\r' || c = Char.ofNat 11 || c = Char.ofNat 12

/-- Python regex `\w` (word character) on the ASCII range. -/
def isWordChar (c : Char) : Bool :=
  ('a' ≤ c && c ≤ 'z') || ('A' ≤ c && c ≤ 'Z') || ('0' ≤ c && c ≤ '9') || c = '_'

/-- The sentence terminators `.`, `!`, `?` (regex class `[.!?]`). -/
def isTerm (c : Char) : Bool :=
  c = '.' || c = '!' || c = '?'

/-- `[A-Z]` in the pause-insertion regex of `process_for_voice`. -/
def isUpperAZ (c : Char) : Bool :=
  'A' ≤ c && c ≤ 'Z'

/-- Python `str.strip()`: remove leading and trailing whitespace. -/
def pyStrip (l : List Char) : List Char :=
  (((l.dropWhile pyIsSpace).reverse.dropWhile pyIsSpace)).reverse

/-- Python `str.lower()` (ASCII model, per-character lowering). -/
def pyLower (l : List Char) : List Char :=
  l.map Char.toLower

/-- Does `l` start with `p`? -/
def startsWithL : List Char → List Char → Bool
  | [], _ => true
  | _ :: _, [] => false
  | p :: ps, c :: cs => p = c && startsWithL ps cs

/-- Does `l` contain `p` as a contiguous substring? -/
def containsL (p : List Char) : List Char → Bool
  | [] => startsWithL p []
  | c :: cs => startsWithL p (c :: cs) || containsL p cs

/-! ## Monitor (`src/echolink/core/monitor.py`)

`TextMonitor.processed_texts` is a Python `set` into which
`str(hash(text.strip().lower()))` values are inserted.  The eviction
step `set(list(self.processed_texts)[-500:])` keeps the last 500
elements of `list(...)`, which enumerates the set in hash-table order —
not insertion order (CPython string hashing is even randomized per
process), so an arbitrary 500-element subset survives.  The cache is
modelled as a duplicate-free list recording membership, and the
enumeration performed by `list(...)` is a parameter `enum` of the
operations: any admissible enumeration — any permutation of the cache's
elements — is a possible behaviour of the program, so universally
quantified theorems hold of the program and an adversarial admissible
`enum` exhibits behaviour the program does not exclude.  The hash is
modelled as the normalized text itself (an injective hash; the spec
tolerates collisions, and no claim depends on them). -/

/-- `str(hash(text.strip().lower()))` — the dedup fingerprint, modelled
as the normalized text. -/
def fingerprint (t : List Char) : List Char :=
  pyLower (pyStrip t)

/-- A subscriber callback: it either returns or raises (`Except.error`). -/
def Cb : Type := List Char → Except (List Char) Unit

/-- An enumeration of the cache, standing for `list(self.processed_texts)`:
the order in which Python iterates the `set`.  It is *admissible* when it
returns a permutation of the cache's elements; the program guarantees
nothing more about it. -/
def Enum : Type := List (List Char) → List (List Char)

/-- `TextMonitor._notify_callbacks` (monitor.py lines 50–83),
parameterized by the set-enumeration order `enum`.

Returns the updated `processed_texts` cache together with the fan-out
trace: one entry per callback invocation, in registration order.  The
`for`/`try`/`except` loop of the source invokes every callback and logs
(rather than propagates) an exception, so the trace records each
callback's `Except` result and the function itself is total.  The
eviction `set(list(self.processed_texts)[-500:])` keeps the last 500
elements of the enumeration `enum` of the overflowing cache — an
arbitrary 500-element subset, since a Python `set` iterates in
hash-table order, not insertion order. -/
def notifyCallbacks (enum : Enum) (minLen : Nat) (cbs : List Cb)
    (processed : List (List Char)) (text : List Char) :
    List (List Char) × List (Except (List Char) Unit) :=
  let stripped := pyStrip text
  -- `if not text.strip(): return`
  if stripped = [] then (processed, [])
  -- `if len(text.strip()) < settings.min_text_length: return`
  else if stripped.length < minLen then (processed, [])
  else
    let h := fingerprint text
    -- `if text_hash in self.processed_texts: return`
    if h ∈ processed then (processed, [])
    else
      -- `self.processed_texts.add(text_hash)`
      let p1 := processed ++ [h]
      -- `if len(self.processed_texts) > 1000:`
      --   `self.processed_texts = set(list(self.processed_texts)[-500:])`
      let p2 := if 1000 < p1.length then (enum p1).drop ((enum p1).length - 500) else p1
      (p2, cbs.map fun cb => cb text)

/-- `TextMonitor.process_manual_text` routes straight into
`_notify_callbacks`. -/
def processManual (enum : Enum) (minLen : Nat) (cbs : List Cb)
    (processed : List (List Char)) (text : List Char) :
    List (List Char) × List (Except (List Char) Unit) :=
  notifyCallbacks enum minLen cbs processed text

/-- The cache state after routing a sequence of texts through the
filter/dedup path (fan-out does not affect the cache). -/
def runTexts (enum : Enum) (minLen : Nat) (cbs : List Cb) (st : List (List Char)) :
    List (List Char) → List (List Char)
  | [] => st
  | t :: ts => runTexts enum minLen cbs (notifyCallbacks enum minLen cbs st t).1 ts

/-! ## TextCleaner (`TextSummarizer.clean_text`, summarizer.py lines 42–75)

Each `re.sub` pass is a left-to-right scanner: it replaces the leftmost
non-overlapping match and resumes scanning right after it. -/

/-- `re.sub(r'\s+', ' ', text)`: collapse whitespace runs to one space.
The `Bool` state records whether the scanner is inside a run. -/
def wsAux : Bool → List Char → List Char
  | _, [] => []
  | inRun, c :: cs =>
    if pyIsSpace c then
      if inRun then wsAux true cs else ' ' :: wsAux true cs
    else c :: wsAux false cs

def wsCollapse (l : List Char) : List Char := wsAux false l

/-- Scanner state for `re.sub(r'\*\*(.*?)\*\*', r'\1', text)`:
outside a match, outside having just seen one `*`, inside (buffered
content, reversed), inside having just seen one `*` of a potential
closing pair. -/
inductive BState : Type
  | out : BState
  | outStar : BState
  | ins : List Char → BState
  | insStar : List Char → BState

/-- `re.sub(r'\*\*(.*?)\*\*', r'\1', text)` (bold markup).  `.` does not
match a newline, so a newline aborts the attempted match; the scanner
then resumes at the newline (no `**` pair can occur in the skipped
région, since a `**` inside the content would have closed the match). -/
def boldAux : BState → List Char → List Char
  | .out, [] => []
  | .out, c :: cs => if c = '*' then boldAux .outStar cs else c :: boldAux .out cs
  | .outStar, [] => ['*']
  | .outStar, c :: cs =>
    if c = '*' then boldAux (.ins []) cs else '*' :: c :: boldAux .out cs
  | .ins buf, [] => '*' :: '*' :: buf.reverse
  | .ins buf, c :: cs =>
    if c = '*' then boldAux (.insStar buf) cs
    else if c = '\n' then ('*' :: '*' :: buf.reverse) ++ '\n' :: boldAux .out cs
    else boldAux (.ins (c :: buf)) cs
  | .insStar buf, [] => '*' :: '*' :: buf.reverse ++ ['*']
  | .insStar buf, c :: cs =>
    if c = '*' then buf.reverse ++ boldAux .out cs
    else if c = '\n' then ('*' :: '*' :: buf.reverse ++ ['*']) ++ '\n' :: boldAux .out cs
    else boldAux (.ins (c :: '*' :: buf)) cs

def boldStrip (l : List Char) : List Char := boldAux .out l

/-- `re.sub(r'd(.*?)d', r'\1', text)` for a one-character delimiter `d`:
used with `d = '*'` (italic) and `d = backtick` (inline code, line 60).
State `some buf` means an opening delimiter was seen and `buf` holds the
reversed content scanned so far. -/
def subDelimAux (d : Char) : Option (List Char) → List Char → List Char
  | none, [] => []
  | none, c :: cs =>
    if c = d then subDelimAux d (some []) cs else c :: subDelimAux d none cs
  | some buf, [] => d :: buf.reverse
  | some buf, c :: cs =>
    if c = d then buf.reverse ++ subDelimAux d none cs
    else if c = '\n' then (d :: buf.reverse) ++ '\n' :: subDelimAux d none cs
    else subDelimAux d (some (c :: buf)) cs

def subDelim (d : Char) (l : List Char) : List Char := subDelimAux d none l

/-- Scanner state for `re.sub(r'#{1,6}\s*', '', text)`. -/
inductive HState : Type
  | norm : HState
  | hashes : HState
  | wsSkip : HState

/-- `re.sub(r'#{1,6}\s*', '', text)` (headers).  A run of more than six
`#` is consumed by consecutive matches, so the net effect is to drop
every `#`-run together with the whitespace that follows it. -/
def headerAux : HState → List Char → List Char
  | _, [] => []
  | .norm, c :: cs =>
    if c = '#' then headerAux .hashes cs else c :: headerAux .norm cs
  | .hashes, c :: cs =>
    if c = '#' then headerAux .hashes cs
    else if pyIsSpace c then headerAux .wsSkip cs
    else c :: headerAux .norm cs
  | .wsSkip, c :: cs =>
    if pyIsSpace c then headerAux .wsSkip cs
    else if c = '#' then headerAux .hashes cs
    else c :: headerAux .norm cs

def headerStrip (l : List Char) : List Char := headerAux .norm l

/-- Scanner state for `re.sub(r'https?://([^\s]+)', r'website \1', text)`:
progress through the literal scheme (`uh` = seen "h", …, `usc2` = seen
"https:/"), then `cap s buf` while capturing `[^\s]+` (`s` records
whether the scheme had an `s`, `buf` the reversed capture). -/
inductive UState : Type
  | n : UState
  | uh : UState
  | uht : UState
  | uhtt : UState
  | uhttp : UState
  | uhttps : UState
  | uc1 : UState
  | uc2 : UState
  | usc1 : UState
  | usc2 : UState
  | cap : Bool → List Char → UState

/-- The literal scheme text consumed before the capture began. -/
def schemeChars (s : Bool) : List Char :=
  if s then ('h' :: 't' :: 't' :: 'p' :: 's' :: ':' :: '/' :: '/' :: [])
  else ('h' :: 't' :: 't' :: 'p' :: ':' :: '/' :: '/' :: [])

/-- `re.sub(r'https?://([^\s]+)', r'website \1', text)` (URL rewrite).
On a failed partial match the consumed characters are emitted verbatim
and scanning resumes at the failing character (no other `h` occurs
inside a proper partial match, so no match start is skipped). -/
def urlAux : UState → List Char → List Char
  | .n, [] => []
  | .n, c :: cs => if c = 'h' then urlAux .uh cs else c :: urlAux .n cs
  | .uh, [] => ['h']
  | .uh, c :: cs =>
    if c = 't' then urlAux .uht cs
    else ('h' :: []) ++ (if c = 'h' then urlAux .uh cs else c :: urlAux .n cs)
  | .uht, [] => ['h', 't']
  | .uht, c :: cs =>
    if c = 't' then urlAux .uhtt cs
    else ('h' :: 't' :: []) ++ (if c = 'h' then urlAux .uh cs else c :: urlAux .n cs)
  | .uhtt, [] => ['h', 't', 't']
  | .uhtt, c :: cs =>
    if c = 'p' then urlAux .uhttp cs
    else ('h' :: 't' :: 't' :: []) ++ (if c = 'h' then urlAux .uh cs else c :: urlAux .n cs)
  | .uhttp, [] => ['h', 't', 't', 'p']
  | .uhttp, c :: cs =>
    if c = 's' then urlAux .uhttps cs
    else if c = ':' then urlAux .uc1 cs
    else ('h' :: 't' :: 't' :: 'p' :: []) ++ (if c = 'h' then urlAux .uh cs else c :: urlAux .n cs)
  | .uhttps, [] => ['h', 't', 't', 'p', 's']
  | .uhttps, c :: cs =>
    if c = ':' then urlAux .usc1 cs
    else ('h' :: 't' :: 't' :: 'p' :: 's' :: []) ++ (if c = 'h' then urlAux .uh cs else c :: urlAux .n cs)
  | .uc1, [] => ['h', 't', 't', 'p', ':']
  | .uc1, c :: cs =>
    if c = '/' then urlAux .uc2 cs
    else ('h' :: 't' :: 't' :: 'p' :: ':' :: []) ++ (if c = 'h' then urlAux .uh cs else c :: urlAux .n cs)
  | .uc2, [] => ['h', 't', 't', 'p', ':', '/']
  | .uc2, c :: cs =>
    if c = '/' then urlAux (.cap false []) cs
    else ('h' :: 't' :: 't' :: 'p' :: ':' :: '/' :: []) ++ (if c = 'h' then urlAux .uh cs else c :: urlAux .n cs)
  | .usc1, [] => ['h', 't', 't', 'p', 's', ':']
  | .usc1, c :: cs =>
    if c = '/' then urlAux .usc2 cs
    else ('h' :: 't' :: 't' :: 'p' :: 's' :: ':' :: []) ++ (if c = 'h' then urlAux .uh cs else c :: urlAux .n cs)
  | .usc2, [] => ['h', 't', 't', 'p', 's', ':', '/']
  | .usc2, c :: cs =>
    if c = '/' then urlAux (.cap true []) cs
    else ('h' :: 't' :: 't' :: 'p' :: 's' :: ':' :: '/' :: []) ++ (if c = 'h' then urlAux .uh cs else c :: urlAux .n cs)
  | .cap s buf, [] =>
    if buf = [] then schemeChars s
    else ('w' :: 'e' :: 'b' :: 's' :: 'i' :: 't' :: 'e' :: ' ' :: []) ++ buf.reverse
  | .cap s buf, c :: cs =>
    if pyIsSpace c then
      (if buf = [] then schemeChars s
       else ('w' :: 'e' :: 'b' :: 's' :: 'i' :: 't' :: 'e' :: ' ' :: []) ++ buf.reverse)
        ++ (if c = 'h' then urlAux .uh cs else c :: urlAux .n cs)
    else urlAux (.cap s (c :: buf)) cs

def urlRewrite (l : List Char) : List Char := urlAux .n l

/-- Scanner state for the fenced-code-block substitution: `o0`–`o2`
count opening backticks seen, `i0`–`i2` are inside the block counting
potential closing backticks (`buf` holds the reversed content). -/
inductive CBState : Type
  | o0 : CBState
  | o1 : CBState
  | o2 : CBState
  | i0 : List Char → CBState
  | i1 : List Char → CBState
  | i2 : List Char → CBState

/-- The literal replacement `[code block]`. -/
def codeBlockTok : List Char :=
  ('[' :: 'c' :: 'o' :: 'd' :: 'e' :: ' ' :: 'b' :: 'l' :: 'o' :: 'c' :: 'k' :: ']' :: [])

/-- The literal replacement `[code]`. -/
def codeTok : List Char :=
  ('[' :: 'c' :: 'o' :: 'd' :: 'e' :: ']' :: [])

/-- Fenced code blocks: the triple-backtick pass of
`re.sub` with pattern "triple backtick, lazy any-char content, triple
backtick" replaced by `[code block]` (summarizer.py line 67); `[\s\S]`
matches newlines too, so only the end of input aborts a match. -/
def cbAux : CBState → List Char → List Char
  | .o0, [] => []
  | .o0, c :: cs => if c = tick then cbAux .o1 cs else c :: cbAux .o0 cs
  | .o1, [] => [tick]
  | .o1, c :: cs => if c = tick then cbAux .o2 cs else tick :: c :: cbAux .o0 cs
  | .o2, [] => [tick, tick]
  | .o2, c :: cs => if c = tick then cbAux (.i0 []) cs else tick :: tick :: c :: cbAux .o0 cs
  | .i0 buf, [] => tick :: tick :: tick :: buf.reverse
  | .i0 buf, c :: cs =>
    if c = tick then cbAux (.i1 buf) cs else cbAux (.i0 (c :: buf)) cs
  | .i1 buf, [] => tick :: tick :: tick :: buf.reverse ++ [tick]
  | .i1 buf, c :: cs =>
    if c = tick then cbAux (.i2 buf) cs else cbAux (.i0 (c :: tick :: buf)) cs
  | .i2 buf, [] => tick :: tick :: tick :: buf.reverse ++ [tick, tick]
  | .i2 buf, c :: cs =>
    if c = tick then codeBlockTok ++ cbAux .o0 cs
    else cbAux (.i0 (c :: tick :: tick :: buf)) cs

def codeBlockSub (l : List Char) : List Char := cbAux .o0 l

/-- Inline code spans: the pass replacing "backtick, greedy
non-backtick content, backtick" by `[code]` (summarizer.py line 68). -/
def inlineAux : Option (List Char) → List Char → List Char
  | none, [] => []
  | none, c :: cs =>
    if c = tick then inlineAux (some []) cs else c :: inlineAux none cs
  | some buf, [] => tick :: buf.reverse
  | some buf, c :: cs =>
    if c = tick then codeTok ++ inlineAux none cs
    else inlineAux (some (c :: buf)) cs

def inlineCodeSub (l : List Char) : List Char := inlineAux none l

/-- Run collapsing for `re.sub(r'[d]{lim,}', replicate repN d, text)`:
`k` counts the pending run of `d`. -/
def crAux (d : Char) (lim repN : Nat) : Nat → List Char → List Char
  | k, [] => if k = 0 then [] else List.replicate (if lim ≤ k then repN else k) d
  | k, c :: cs =>
    if c = d then crAux d lim repN (k + 1) cs
    else
      (if k = 0 then [] else List.replicate (if lim ≤ k then repN else k) d)
        ++ c :: crAux d lim repN 0 cs

/-- `re.sub(r'[.]{3,}', '...', text)`. -/
def dotCollapse (l : List Char) : List Char := crAux '.' 3 3 0 l

/-- `re.sub(r'[!]{2,}', '!', text)`. -/
def bangCollapse (l : List Char) : List Char := crAux '!' 2 1 0 l

/-- `re.sub(r'[?]{2,}', '?', text)`. -/
def qCollapse (l : List Char) : List Char := crAux '?' 2 1 0 l

/-- `TextSummarizer.clean_text` (summarizer.py lines 42–75): whitespace
collapse, bold, italic, inline-code delimiter strip, headers, URL
rewrite, fenced code blocks, inline code spans, punctuation collapse,
final strip; empty input returns empty. -/
def cleanText (t : List Char) : List Char :=
  if t = [] then []
  else
    pyStrip (qCollapse (bangCollapse (dotCollapse (inlineCodeSub (codeBlockSub
      (urlRewrite (headerStrip (subDelim tick (subDelim '*' (boldStrip
        (wsCollapse t)))))))))))

/-- The whitespace/punctuation core of `clean_text`: on markup-free
input the emphasis, code, header and URL passes are identities, and
`cleanText` reduces to this composition. -/
def cleanCore (t : List Char) : List Char :=
  pyStrip (qCollapse (bangCollapse (dotCollapse (wsCollapse t))))

/-! ## Summarizer (`TextSummarizer`, summarizer.py) -/

/-- The configuration the summarizer reads (`EchoLinkSettings`):
`summarization_enabled` (default true), `min_text_length` (default 50),
`max_summary_length` (default 150). -/
structure Config : Type where
  summarizationEnabled : Bool
  minTextLength : Nat
  maxSummaryLength : Nat
deriving DecidableEq

/-- The defaults of `EchoLinkSettings`. -/
def cfgDefault : Config := ⟨true, 50, 150⟩

/-- `settings.summarization_provider` values dispatched on by
`summarize_text` (anything other than the two AI providers falls
through to the rule-based summarizer). -/
inductive Provider : Type
  | openai : Provider
  | ollama : Provider
  | simple : Provider
deriving DecidableEq

/-- The ellipsis marker appended on truncation. -/
def ellipsis : List Char := ('.' :: '.' :: '.' :: [])

/-- `TextSummarizer.should_summarize` (summarizer.py lines 77–94). -/
def shouldSummarize (cfg : Config) (text : List Char) : Bool :=
  if !cfg.summarizationEnabled then false
  else if text.length < cfg.minTextLength * 2 then false
  else decide (cfg.maxSummaryLength * 2 < text.length)

mutual

/-- `re.split(r'[.!?]+', text)`, part 1: accumulating the current
fragment (reversed) while outside a terminator run. -/
def splitTermA (acc : List Char) : List Char → List (List Char)
  | [] => [acc.reverse]
  | c :: cs => if isTerm c then acc.reverse :: splitTermB cs else splitTermA (c :: acc) cs

/-- `re.split(r'[.!?]+', text)`, part 2: inside a terminator run. -/
def splitTermB : List Char → List (List Char)
  | [] => [[]]
  | c :: cs => if isTerm c then splitTermB cs else splitTermA [c] cs

end

/-- `re.split(r'[.!?]+', text)`: split on runs of sentence
terminators. -/
def reSplitTerm (l : List Char) : List (List Char) := splitTermA [] l

/-- `if len(summary) > max: summary = summary[:max] + "..."` — the
clamp applied by `simple_summarize`, `ai_summarize` and
`ollama_summarize`. -/
def clampSummary (maxLen : Nat) (s : List Char) : List Char :=
  if maxLen < s.length then s.take maxLen ++ ellipsis else s

/-- `TextSummarizer.simple_summarize` (summarizer.py lines 96–128):
split into sentences, keep the stripped fragments longer than 10
characters; with none, return the first `max_summary_length` characters
plus `...`; with one, return it; with two, join with `". "`; with three
or more, return `first + ". ... " + last`; finally clamp. -/
def simpleSummarize (cfg : Config) (text : List Char) : List Char :=
  let sentences := reSplitTerm text
  let meaningful := (sentences.map pyStrip).filter fun s => decide (10 < s.length)
  match meaningful with
  | [] => text.take cfg.maxSummaryLength ++ ellipsis
  | [s] => clampSummary cfg.maxSummaryLength s
  | [s1, s2] => clampSummary cfg.maxSummaryLength (s1 ++ ('.' :: ' ' :: []) ++ s2)
  | s1 :: _ :: _ :: _ =>
    clampSummary cfg.maxSummaryLength
      (s1 ++ ('.' :: ' ' :: '.' :: '.' :: '.' :: ' ' :: []) ++ meaningful.getLastD [])

/-- `TextSummarizer.ai_summarize` (summarizer.py lines 130–172): the
OpenAI call is external; `resp = none` models a missing client or any
raised exception (the function returns `None`), `resp = some r` models
a successful response with content `r`, which is stripped and clamped. -/
def aiSummarize (cfg : Config) (resp : Option (List Char)) : Option (List Char) :=
  resp.map fun r => clampSummary cfg.maxSummaryLength (pyStrip r)

/-- `TextSummarizer.ollama_summarize` (summarizer.py lines 174–225):
same shape as `ai_summarize` — a transport error yields `None`, a
response is stripped and clamped (a missing `response` key yields the
empty string, i.e. `resp = some []`). -/
def ollamaSummarize (cfg : Config) (resp : Option (List Char)) : Option (List Char) :=
  resp.map fun r => clampSummary cfg.maxSummaryLength (pyStrip r)

/-- `TextSummarizer.summarize_text` (summarizer.py lines 227–264).
`prov` is `settings.summarization_provider`; `resp` is the outcome of
the external AI call for the configured provider.  An AI result that is
`None` or empty (Python truthiness) falls back to
`simple_summarize`. -/
def summarizeText (cfg : Config) (prov : Provider) (resp : Option (List Char))
    (text : List Char) : List Char :=
  -- `if not text or not text.strip(): return ""`
  if pyStrip text = [] then []
  else
    let cleaned := cleanText text
    if !shouldSummarize cfg cleaned then cleaned
    else
      let aiOut : Option (List Char) :=
        match prov with
        | .ollama => ollamaSummarize cfg resp
        | .openai => aiSummarize cfg resp
        | .simple => none
      match aiOut with
      | some s => if s = [] then simpleSummarize cfg cleaned else s
      | none => simpleSummarize cfg cleaned

/-! ## Voice formatting (`TextSummarizer.process_for_voice`,
summarizer.py lines 266–304) -/

/-- Case-insensitive "starts with" for a lowercase pattern (regex
`re.IGNORECASE`; the non-letter pattern characters `/` and `.` are
fixed points of `toLower`). -/
def ciStarts : List Char → List Char → Bool
  | [], _ => true
  | _ :: _, [] => false
  | p :: ps, c :: cs => c.toLower = p && ciStarts ps cs

/-- One whole-word, case-insensitive replacement
`re.sub(r'\b<pat>\b', rep, text, flags=re.IGNORECASE)`.  `prevW` is the
wordness of the previous text character (`false` at the start of the
string); a `\b` holds where wordness changes, so the boundary tests
compare the wordness of the pattern's edge characters with that of the
neighbouring text characters.  After a match the replacement is emitted
and `skip` counts the remaining matched characters to consume (scanning
resumes after the match, per `re.sub`). -/
def subPatAux (pat rep : List Char) (pfw plw : Bool) :
    Nat → Bool → List Char → List Char
  | _ + 1, _, [] => []
  | skip + 1, prevW, _ :: cs => subPatAux pat rep pfw plw skip prevW cs
  | 0, _, [] => []
  | 0, prevW, c :: cs =>
    if (prevW != pfw) && ciStarts pat (c :: cs) &&
        (plw != (match ((c :: cs).drop pat.length).head? with
                 | some d => isWordChar d
                 | none => false)) then
      rep ++ subPatAux pat rep pfw plw (pat.length - 1) plw cs
    else c :: subPatAux pat rep pfw plw 0 (isWordChar c) cs

/-- Whole-word case-insensitive substitution of `pat` by `rep`. -/
def subWordPat (pat rep l : List Char) : List Char :=
  subPatAux pat rep (isWordChar (pat.headD ' ')) (isWordChar (pat.getLastD ' '))
    0 false l

/-- The abbreviation table of `process_for_voice`, in its Python dict
(insertion) order. -/
def voicePairs : List (List Char × List Char) :=
  [ ("dr".toList, "doctor".toList)
  , ("mr".toList, "mister".toList)
  , ("mrs".toList, "missus".toList)
  , ("ms".toList, "miss".toList)
  , ("etc".toList, "etcetera".toList)
  , ("vs".toList, "versus".toList)
  , ("w/".toList, "with".toList)
  , ("w/o".toList, "without".toList)
  , ("e.g.".toList, "for example".toList)
  , ("i.e.".toList, "that is".toList) ]

/-- The `for pattern, replacement in replacements.items()` loop. -/
def applyVoiceSubs (l : List Char) : List Char :=
  voicePairs.foldl (fun acc pr => subWordPat pr.1 pr.2 acc) l

/-- `re.sub(r'([.!?])\s*([A-Z])', r'\1... \2', text)` (pause
insertion).  State `some (t, ws)` means terminator `t` was seen,
followed by the (reversed) whitespace `ws`. -/
def pauseAux : Option (Char × List Char) → List Char → List Char
  | none, [] => []
  | none, c :: cs =>
    if isTerm c then pauseAux (some (c, [])) cs else c :: pauseAux none cs
  | some (t, ws), [] => t :: ws.reverse
  | some (t, ws), c :: cs =>
    if isUpperAZ c then
      (t :: '.' :: '.' :: '.' :: ' ' :: c :: []) ++ pauseAux none cs
    else if pyIsSpace c then pauseAux (some (t, c :: ws)) cs
    else if isTerm c then (t :: ws.reverse) ++ pauseAux (some (c, [])) cs
    else (t :: ws.reverse) ++ c :: pauseAux none cs

def pauseSub (l : List Char) : List Char := pauseAux none l

/-- `process_for_voice` before its final punctuation step: summarize,
expand abbreviations, insert pauses. -/
def preVoice (cfg : Config) (prov : Provider) (resp : Option (List Char))
    (text : List Char) : List Char :=
  pauseSub (applyVoiceSubs (summarizeText cfg prov resp text))

/-- The final step of `process_for_voice`: `if processed_text and not
processed_text[-1] in '.!?': processed_text += '.'`. -/
def finalDot (s : List Char) : List Char :=
  match s.getLast? with
  | none => s
  | some c => if isTerm c then s else s ++ ['.']

/-- `TextSummarizer.process_for_voice` (summarizer.py lines 266–304):
summarize, expand abbreviations, insert pauses, ensure terminal
punctuation. -/
def processForVoice (cfg : Config) (prov : Provider) (resp : Option (List Char))
    (text : List Char) : List Char :=
  finalDot (preVoice cfg prov resp text)

/-! ## Statements from the specification, for comparison with the code -/

/-- The rule-based strategy exactly as claim C5 words it: split on the
sentence terminators, *discard fragments shorter than 10 characters
after trimming* (i.e. keep those of length ≥ 10), then combine: zero →
first `maxSummaryLength` characters plus ellipsis marker; one → that
sentence verbatim; two → joined with `". "`; three or more → `first +
". ... " + last`; a combined result exceeding `maxSummaryLength` is
truncated to that length with an ellipsis marker appended. -/
def simpleSummarizeSpec (cfg : Config) (text : List Char) : List Char :=
  let meaningful := ((reSplitTerm text).map pyStrip).filter fun s => decide (10 ≤ s.length)
  if meaningful.length = 0 then text.take cfg.maxSummaryLength ++ ellipsis
  else
    clampSummary cfg.maxSummaryLength
      (if meaningful.length = 1 then meaningful.headD []
       else if meaningful.length = 2 then
         meaningful.headD [] ++ ('.' :: ' ' :: []) ++ meaningful.getLastD []
       else
         meaningful.headD [] ++ ('.' :: ' ' :: '.' :: '.' :: '.' :: ' ' :: [])
           ++ meaningful.getLastD [])

/-- Claim C5 amended at its filter boundary: *discard fragments of at
most 10 characters after trimming* (keep those of length > 10),
everything else as in `simpleSummarizeSpec`. -/
def simpleSummarizeSpecAmended (cfg : Config) (text : List Char) : List Char :=
  let meaningful := ((reSplitTerm text).map pyStrip).filter fun s => decide (10 < s.length)
  if meaningful.length = 0 then text.take cfg.maxSummaryLength ++ ellipsis
  else
    clampSummary cfg.maxSummaryLength
      (if meaningful.length = 1 then meaningful.headD []
       else if meaningful.length = 2 then
         meaningful.headD [] ++ ('.' :: ' ' :: []) ++ meaningful.getLastD []
       else
         meaningful.headD [] ++ ('.' :: ' ' :: '.' :: '.' :: '.' :: ' ' :: [])
           ++ meaningful.getLastD [])

/-- The concrete 1001-text overflow sequence for the eviction
analysis: pairwise-distinct all-letter texts of increasing length. -/
def evictionWitnessTexts : List (List Char) :=
  (List.range 1001).map fun n => List.replicate (n + 1) 'a'

/-- The cache after routing the first 1000 texts of
`evictionWitnessTexts`: 1000 pairwise-distinct fingerprints, filling
the cache exactly to its bound (independent of the enumeration, since
no eviction fires below the bound). -/
def cacheFull : List (List Char) :=
  (List.range 1000).map fun n => List.replicate (n + 1) 'a'

/-! ## Monitor lemmas -/

theorem drop_append_singleton {α : Type} (n : Nat) (l : List α) (a : α) (h : n ≤ l.length) :
    (l ++ [a]).drop n = l.drop n ++ [a] := by
  induction l generalizing n with
  | nil =>
    have : n = 0 := Nat.le_zero.mp h
    simp [this]
  | cons c cs ih =>
    cases n with
    | zero => simp
    | succ m => simpa using ih m (Nat.le_of_succ_le_succ h)

/-- `_notify_callbacks` on a fresh qualifying text: the fingerprint is
inserted (with the eviction rule over the enumeration `enum`) and
fan-out reaches every callback. -/
theorem notify_insert (enum : Enum) (minLen : Nat) (cbs : List Cb) (st : List (List Char))
    (t : List Char) (h1 : pyStrip t ≠ []) (h2 : ¬ (pyStrip t).length < minLen)
    (h3 : fingerprint t ∉ st) :
    notifyCallbacks enum minLen cbs st t =
      (if 1000 < (st ++ [fingerprint t]).length then
        (enum (st ++ [fingerprint t])).drop ((enum (st ++ [fingerprint t])).length - 500)
       else st ++ [fingerprint t],
       cbs.map fun cb => cb t) := by
  simp only [notifyCallbacks, if_neg h1, if_neg h2, if_neg h3]

/-- `_notify_callbacks` on an already-seen fingerprint changes nothing
and delivers nothing (the three skip branches coincide). -/
theorem notify_skip_of_mem (enum : Enum) (minLen : Nat) (cbs : List Cb) (st : List (List Char))
    (t : List Char) (h : fingerprint t ∈ st) :
    notifyCallbacks enum minLen cbs st t = (st, []) := by
  by_cases h1 : pyStrip t = []
  · simp only [notifyCallbacks, if_pos h1]
  · by_cases h2 : (pyStrip t).length < minLen
    · simp only [notifyCallbacks, if_neg h1, if_pos h2]
    · simp only [notifyCallbacks, if_neg h1, if_neg h2, if_pos h]

/-- Whatever the branch, a non-delivering call leaves the state intact;
and any call's fan-out is empty unless the insert branch is taken.  In
particular a call whose fingerprint is already cached delivers `[]`. -/
theorem notify_trace_of_mem (enum : Enum) (minLen : Nat) (cbs : List Cb) (st : List (List Char))
    (t : List Char) (h : fingerprint t ∈ st) :
    (notifyCallbacks enum minLen cbs st t).2 = [] := by
  rw [notify_skip_of_mem enum minLen cbs st t h]

/-- Below capacity, the fingerprint of a qualifying text is cached by
the call: the eviction branch is not taken, so the result does not
depend on the enumeration.  (At capacity the program gives no such
guarantee: the eviction keeps an arbitrary 500-subset.) -/
theorem notify_mem_state (enum : Enum) (minLen : Nat) (cbs : List Cb) (st : List (List Char))
    (t : List Char) (h1 : pyStrip t ≠ []) (h2 : ¬ (pyStrip t).length < minLen)
    (hcap : st.length < 1000) :
    fingerprint t ∈ (notifyCallbacks enum minLen cbs st t).1 := by
  by_cases h3 : fingerprint t ∈ st
  · rw [notify_skip_of_mem enum minLen cbs st t h3]
    exact h3
  · rw [notify_insert enum minLen cbs st t h1 h2 h3]
    have hle : ¬ 1000 < (st ++ [fingerprint t]).length := by
      simp only [List.length_append, List.length_singleton]
      omega
    show fingerprint t ∈ (if 1000 < (st ++ [fingerprint t]).length then
        (enum (st ++ [fingerprint t])).drop ((enum (st ++ [fingerprint t])).length - 500)
      else st ++ [fingerprint t])
    rw [if_neg hle]
    exact List.mem_append_right _ (List.mem_singleton_self _)

/-- C8: for every text whose trimmed length is below `min_text_length`,
`processManual` leaves the cache unchanged and invokes no subscriber,
whatever the registered subscriber set and whatever the set-enumeration
order. -/
theorem length_filter_blocks (enum : Enum) (minLen : Nat) (cbs : List Cb)
    (st : List (List Char)) (t : List Char) (h : (pyStrip t).length < minLen) :
    processManual enum minLen cbs st t = (st, []) := by
  by_cases h1 : pyStrip t = []
  · simp only [processManual, notifyCallbacks, if_pos h1]
  · simp only [processManual, notifyCallbacks, if_neg h1, if_pos h]

/-- Witness for C8 at a concrete short text. -/
theorem length_filter_blocks_witness :
    (pyStrip "short".toList).length < 50 ∧
      processManual id 50 [] [] "short".toList = ([], []) :=
  ⟨by decide, length_filter_blocks id 50 [] [] "short".toList (by decide)⟩

/-- C3: with the cache below capacity (the claim's "cache capacity not
exceeded in between" proviso: below the bound, no eviction fires
between the two calls), on a fresh text whose trimmed length reaches
the (positive) minimum, two successive `processManual` calls deliver to
each registered subscriber exactly once in total: the first call's
fan-out trace has exactly one entry per subscriber, the second call's
trace is empty — for every set-enumeration order. -/
theorem dedup_idempotent (enum : Enum) (minLen : Nat) (cbs : List Cb) (st : List (List Char))
    (t : List Char) (hmin : 0 < minLen) (hlen : minLen ≤ (pyStrip t).length)
    (hnew : fingerprint t ∉ st) (hcap : st.length < 1000) :
    (processManual enum minLen cbs st t).2 = cbs.map (fun cb => cb t) ∧
      (processManual enum minLen cbs (processManual enum minLen cbs st t).1 t).2 = [] := by
  have h1 : pyStrip t ≠ [] := by
    intro h
    rw [h] at hlen
    exact absurd (Nat.lt_of_lt_of_le hmin hlen) (by simp)
  have h2 : ¬ (pyStrip t).length < minLen := Nat.not_lt.mpr hlen
  constructor
  · simp only [processManual, notify_insert enum minLen cbs st t h1 h2 hnew]
  · exact notify_trace_of_mem enum minLen cbs _ t
      (notify_mem_state enum minLen cbs st t h1 h2 hcap)

/-- Witness for C3 at a concrete fresh text, with the empty (below-
capacity) cache. -/
theorem dedup_idempotent_witness :
    (0 < 5 ∧ 5 ≤ (pyStrip "hello there".toList).length ∧
      fingerprint "hello there".toList ∉ ([] : List (List Char)) ∧
      ([] : List (List Char)).length < 1000) ∧
    (processManual id 5 [fun _ => Except.ok ()] [] "hello there".toList).2 =
        [Except.ok ()] ∧
      (processManual id 5 [fun _ => Except.ok ()]
          (processManual id 5 [fun _ => Except.ok ()] [] "hello there".toList).1
          "hello there".toList).2 = [] :=
  ⟨⟨by decide, by decide, by decide, by decide⟩,
    dedup_idempotent id 5 [fun _ => Except.ok ()] [] "hello there".toList
      (by decide) (by decide) (by decide) (by decide)⟩

/-- C4: fan-out is exception-isolated — with a raising subscriber
registered between two groups of subscribers, a qualifying fresh text
still produces one invocation entry per subscriber, in order, and the
error is recorded in the trace rather than propagated (the call returns
normally). -/
theorem subscriber_isolation (enum : Enum) (minLen : Nat) (st : List (List Char))
    (t : List Char) (pre post : List Cb) (bad : Cb) (msg : List Char)
    (hbad : bad t = Except.error msg)
    (h1 : pyStrip t ≠ []) (h2 : ¬ (pyStrip t).length < minLen)
    (h3 : fingerprint t ∉ st) :
    (processManual enum minLen (pre ++ bad :: post) st t).2 =
        pre.map (fun cb => cb t) ++ Except.error msg :: post.map (fun cb => cb t) ∧
      (processManual enum minLen (pre ++ bad :: post) st t).2.length =
        pre.length + 1 + post.length := by
  have hins := notify_insert enum minLen (pre ++ bad :: post) st t h1 h2 h3
  constructor
  · simp only [processManual, hins, List.map_append, List.map_cons, hbad]
  · simp only [processManual, hins, List.length_map, List.length_append, List.length_cons]
    omega

/-- Witness for C4: a subscriber raising on every call alongside a
well-behaved one; the well-behaved subscriber is still invoked exactly
once. -/
theorem subscriber_isolation_witness :
    (processManual id 5 [fun _ => Except.error "boom".toList, fun _ => Except.ok ()]
        [] "a sufficiently long valid text".toList).2 =
      [Except.error "boom".toList, Except.ok ()] :=
  (subscriber_isolation id 5 [] "a sufficiently long valid text".toList
    [] [fun _ => Except.ok ()] (fun _ => Except.error "boom".toList) "boom".toList
    rfl (by decide) (by decide) (by decide)).1

/-- C9: with the cache below capacity (so that no arbitrary-subset
eviction fires), a qualifying text's fingerprint is cached by
`processManual` even with zero subscribers registered, and a second
call with any normalization-equal text then delivers to no subscriber —
including subscribers added in between — for every set-enumeration
order. -/
theorem insert_before_fanout (enum : Enum) (minLen : Nat) (st : List (List Char))
    (t u : List Char) (cbs : List Cb) (h1 : pyStrip t ≠ [])
    (h2 : ¬ (pyStrip t).length < minLen) (hfp : fingerprint u = fingerprint t)
    (hcap : st.length < 1000) :
    fingerprint t ∈ (processManual enum minLen [] st t).1 ∧
      (processManual enum minLen cbs (processManual enum minLen [] st t).1 u).2 = [] := by
  have hmem : fingerprint t ∈ (processManual enum minLen [] st t).1 :=
    notify_mem_state enum minLen [] st t h1 h2 hcap
  exact ⟨hmem, notify_trace_of_mem enum minLen cbs _ u (hfp ▸ hmem)⟩

/-- Witness for C9: the second text differs only in case yet is
deduplicated; the subscriber registered for the second call gets
nothing.  The initial cache is empty, hence below capacity. -/
theorem insert_before_fanout_witness :
    fingerprint "A Qualifying Text".toList ∈
        (processManual id 5 [] [] "A Qualifying Text".toList).1 ∧
      (processManual id 5 [fun _ => Except.ok ()]
          (processManual id 5 [] [] "A Qualifying Text".toList).1
          "a qualifying TEXT".toList).2 = [] :=
  insert_before_fanout id 5 [] "A Qualifying Text".toList "a qualifying TEXT".toList
    [fun _ => Except.ok ()] (by decide) (by decide) (by decide) (by decide)

/-! ## Eviction analysis (C1)

`len(self.processed_texts) > 1000` triggers
`self.processed_texts = set(list(self.processed_texts)[-500:])`
(monitor.py line 75).  `list(...)` enumerates the `set` in hash-table
order, so the surviving 500 elements are an arbitrary subset of the
overflowing cache: the source comment "Remove oldest entries" and the
claim's "most recent" wording describe an ordering the data structure
does not maintain.  The theorems below route the concrete 1001-text
overflow sequence and show that whether the just-inserted fingerprint
survives depends on the enumeration order. -/

/-- Routing `ts ++ [t]` is routing `ts` and then `t`. -/
theorem runTexts_append (enum : Enum) (minLen : Nat) (cbs : List Cb) (ts : List (List Char))
    (t : List Char) (st : List (List Char)) :
    runTexts enum minLen cbs st (ts ++ [t]) =
      (notifyCallbacks enum minLen cbs (runTexts enum minLen cbs st ts) t).1 := by
  induction ts generalizing st with
  | nil => rfl
  | cons u ts ih => exact ih _

/-- `strip()` is the identity on all-letter texts. -/
theorem pyStrip_replicate_a (n : Nat) :
    pyStrip (List.replicate (n + 1) 'a') = List.replicate (n + 1) 'a' := by
  have hdw : ∀ m : Nat,
      List.dropWhile pyIsSpace (List.replicate m 'a') = List.replicate m 'a' := by
    intro m
    cases m with
    | zero => rfl
    | succ p => simp [List.replicate_succ, List.dropWhile_cons, pyIsSpace]
  unfold pyStrip
  rw [hdw, List.reverse_replicate, hdw, List.reverse_replicate]

/-- The fingerprint of an all-lowercase-letter text is the text itself. -/
theorem fingerprint_replicate_a (n : Nat) :
    fingerprint (List.replicate (n + 1) 'a') = List.replicate (n + 1) 'a' := by
  unfold fingerprint pyLower
  rw [pyStrip_replicate_a, List.map_replicate]
  rfl

theorem pyStrip_replicate_1001 :
    pyStrip (List.replicate 1001 'a') = List.replicate 1001 'a' :=
  pyStrip_replicate_a 1000

theorem fingerprint_replicate_1001 :
    fingerprint (List.replicate 1001 'a') = List.replicate 1001 'a' :=
  fingerprint_replicate_a 1000

theorem cacheFull_length : cacheFull.length = 1000 := by
  simp [cacheFull]

/-- Splitting the witness sequence at its last (overflowing) text. -/
theorem evictionWitnessTexts_split :
    evictionWitnessTexts =
      ((List.range 1000).map fun n => List.replicate (n + 1) 'a') ++
        [List.replicate 1001 'a'] := by
  have h : List.range 1001 = List.range 1000 ++ [1000] := @List.range_succ 1000
  unfold evictionWitnessTexts
  rw [h, List.map_append]
  simp

/-- Below capacity, routing fresh qualifying texts appends their
fingerprints in insertion order, for every enumeration: the eviction
branch never fires. -/
theorem runTexts_no_overflow (enum : Enum) (minLen : Nat) (cbs : List Cb)
    (ts : List (List Char)) (st : List (List Char))
    (hcap : st.length + ts.length ≤ 1000)
    (hqual : ∀ t ∈ ts, pyStrip t ≠ [] ∧ minLen ≤ (pyStrip t).length)
    (hnd : (ts.map fingerprint).Nodup)
    (hfresh : ∀ t ∈ ts, fingerprint t ∉ st) :
    runTexts enum minLen cbs st ts = st ++ ts.map fingerprint := by
  induction ts generalizing st with
  | nil => simp [runTexts]
  | cons t ts ih =>
    obtain ⟨h1, h2'⟩ := hqual t (List.mem_cons_self t ts)
    have h2 : ¬ (pyStrip t).length < minLen := Nat.not_lt.mpr h2'
    have h3 : fingerprint t ∉ st := hfresh t (List.mem_cons_self t ts)
    have hnd' : (fingerprint t :: ts.map fingerprint).Nodup := by
      simpa using hnd
    have hnocap : ¬ 1000 < (st ++ [fingerprint t]).length := by
      simp only [List.length_append, List.length_singleton]
      simp only [List.length_cons] at hcap
      omega
    have hstep : (notifyCallbacks enum minLen cbs st t).1 = st ++ [fingerprint t] := by
      rw [notify_insert enum minLen cbs st t h1 h2 h3]
      show (if 1000 < (st ++ [fingerprint t]).length then
          (enum (st ++ [fingerprint t])).drop ((enum (st ++ [fingerprint t])).length - 500)
        else st ++ [fingerprint t]) = st ++ [fingerprint t]
      exact if_neg hnocap
    have hcap2 : (st ++ [fingerprint t]).length + ts.length ≤ 1000 := by
      simp only [List.length_append, List.length_singleton]
      simp only [List.length_cons] at hcap
      omega
    have hqual2 : ∀ u ∈ ts, pyStrip u ≠ [] ∧ minLen ≤ (pyStrip u).length :=
      fun u hu => hqual u (List.mem_cons_of_mem t hu)
    have hnd2 : (ts.map fingerprint).Nodup := (List.nodup_cons.mp hnd').2
    have hfresh2 : ∀ u ∈ ts, fingerprint u ∉ st ++ [fingerprint t] := by
      intro u hu hmem
      rcases List.mem_append.mp hmem with hm | hm
      · exact hfresh u (List.mem_cons_of_mem t hu) hm
      · exact (List.nodup_cons.mp hnd').1
          ((List.mem_singleton.mp hm) ▸ List.mem_map_of_mem fingerprint hu)
    have hrec := ih (st ++ [fingerprint t]) hcap2 hqual2 hnd2 hfresh2
    calc runTexts enum minLen cbs st (t :: ts)
        = runTexts enum minLen cbs (st ++ [fingerprint t]) ts := by
          show runTexts enum minLen cbs (notifyCallbacks enum minLen cbs st t).1 ts =
            runTexts enum minLen cbs (st ++ [fingerprint t]) ts
          rw [hstep]
      _ = (st ++ [fingerprint t]) ++ ts.map fingerprint := hrec
      _ = st ++ (t :: ts).map fingerprint := by
          rw [List.append_assoc]
          rfl

/-- Routing the first 1000 witness texts from the empty cache fills it
exactly, independently of the enumeration. -/
theorem runTexts_cacheFull (enum : Enum) :
    runTexts enum 1 [] [] ((List.range 1000).map fun n => List.replicate (n + 1) 'a') =
      cacheFull := by
  have hqual : ∀ t ∈ (List.range 1000).map fun n => List.replicate (n + 1) 'a',
      pyStrip t ≠ [] ∧ 1 ≤ (pyStrip t).length := by
    intro t ht
    simp only [List.mem_map, List.mem_range] at ht
    obtain ⟨n, _, rfl⟩ := ht
    rw [pyStrip_replicate_a]
    constructor
    · simp
    · simp
  have hmapfp : (((List.range 1000).map fun n => List.replicate (n + 1) 'a').map
      fingerprint) = (List.range 1000).map fun n => List.replicate (n + 1) 'a' := by
    simp only [List.map_map]
    exact List.map_congr_left fun n _ => fingerprint_replicate_a n
  have hnd : ((((List.range 1000).map fun n => List.replicate (n + 1) 'a')).map
      fingerprint).Nodup := by
    rw [hmapfp]
    refine List.Nodup.map ?_ (List.nodup_range 1000)
    intro m n hmn
    have hl := congrArg List.length hmn
    simp only [List.length_replicate] at hl
    omega
  have hcap0 : ([] : List (List Char)).length +
      ((List.range 1000).map fun n => List.replicate (n + 1) 'a').length ≤ 1000 := by
    simp
  have hfresh0 : ∀ t ∈ (List.range 1000).map fun n => List.replicate (n + 1) 'a',
      fingerprint t ∉ ([] : List (List Char)) := by
    simp
  rw [runTexts_no_overflow enum 1 []
      ((List.range 1000).map fun n => List.replicate (n + 1) 'a') [] hcap0 hqual hnd hfresh0,
    hmapfp, List.nil_append]
  rfl

/-- The reversed enumeration of a just-overflowed cache: the
keep-last-500 slice evicts the newest fingerprint and keeps the 500
oldest. -/
theorem revDrop_eq (l : List (List Char)) (h : List Char) (hl : l.length = 1000) :
    (List.reverse (l ++ [h])).drop ((List.reverse (l ++ [h])).length - 500) =
      l.reverse.drop 500 := by
  rw [List.reverse_append]
  have hr : List.reverse [h] ++ l.reverse = h :: l.reverse := rfl
  rw [hr, List.length_cons, List.length_reverse, hl]
  show (h :: l.reverse).drop (500 + 1) = l.reverse.drop 500
  rw [List.drop_succ_cons]

/-- The identity enumeration of a just-overflowed cache: the
keep-last-500 slice keeps the newest fingerprint. -/
theorem idDrop_eq (l : List (List Char)) (h : List Char) (hl : l.length = 1000) :
    (l ++ [h]).drop ((l ++ [h]).length - 500) = l.drop 501 ++ [h] := by
  rw [List.length_append, List.length_singleton, hl]
  show (l ++ [h]).drop 501 = l.drop 501 ++ [h]
  rw [drop_append_singleton 501 l h (by omega)]

/-- C1: the claims recency properties are not program properties.  The
eviction `set(list(self.processed_texts)[-500:])` keeps the last 500
elements of the `set` enumeration, and a `set` enumerates in hash-table
order, not insertion order.  Routing the 1001 pairwise-distinct
qualifying witness texts from the empty cache: the overflowing 1001st
insertion always leaves 500 fingerprints, but under the reversed
enumeration — admissible, since it permutes the cache — the surviving
500 are the 500 *oldest* fingerprints and the just-inserted fingerprint
is evicted, while under the identity enumeration it survives.  Which
subset survives is an accident of enumeration order, contradicting
"truncates it to its most-recent C/2 members" and "the most recently
inserted fingerprint is always still present"; the source comment
"Remove oldest entries" documents the same unmet intent. -/
theorem eviction_truncation_unordered :
    (∀ s : List (List Char), (List.reverse s).Perm s) ∧
      (runTexts List.reverse 1 [] [] evictionWitnessTexts).length = 500 ∧
      fingerprint (List.replicate 1001 'a') ∉
        runTexts List.reverse 1 [] [] evictionWitnessTexts ∧
      fingerprint (List.replicate 1001 'a') ∈ runTexts id 1 [] [] evictionWitnessTexts := by
  have hfresh : fingerprint (List.replicate 1001 'a') ∉ cacheFull := by
    rw [fingerprint_replicate_1001]
    intro hm
    simp only [cacheFull, List.mem_map, List.mem_range] at hm
    obtain ⟨n, hn, he⟩ := hm
    have hl := congrArg List.length he
    simp only [List.length_replicate] at hl
    omega
  have h1 : pyStrip (List.replicate 1001 'a') ≠ [] := by
    rw [pyStrip_replicate_1001]
    simp
  have h2 : ¬ (pyStrip (List.replicate 1001 'a')).length < 1 := by
    rw [pyStrip_replicate_1001]
    simp
  have hrun : ∀ enum : Enum, runTexts enum 1 [] [] evictionWitnessTexts =
      (notifyCallbacks enum 1 [] cacheFull (List.replicate 1001 'a')).1 := by
    intro enum
    rw [evictionWitnessTexts_split, runTexts_append, runTexts_cacheFull]
  have hlen1001 : (cacheFull ++ [fingerprint (List.replicate 1001 'a')]).length = 1001 := by
    rw [fingerprint_replicate_1001]
    simp [cacheFull]
  have hovf : 1000 < (cacheFull ++ [fingerprint (List.replicate 1001 'a')]).length := by
    rw [hlen1001]
    omega
  have hins : ∀ enum : Enum,
      (notifyCallbacks enum 1 [] cacheFull (List.replicate 1001 'a')).1 =
        (enum (cacheFull ++ [fingerprint (List.replicate 1001 'a')])).drop
          ((enum (cacheFull ++ [fingerprint (List.replicate 1001 'a')])).length - 500) := by
    intro enum
    rw [notify_insert enum 1 [] cacheFull (List.replicate 1001 'a') h1 h2 hfresh]
    show (if 1000 < (cacheFull ++ [fingerprint (List.replicate 1001 'a')]).length then
        (enum (cacheFull ++ [fingerprint (List.replicate 1001 'a')])).drop
          ((enum (cacheFull ++ [fingerprint (List.replicate 1001 'a')])).length - 500)
      else cacheFull ++ [fingerprint (List.replicate 1001 'a')]) = _
    rw [if_pos hovf]
  have hrevstate : runTexts List.reverse 1 [] [] evictionWitnessTexts =
      cacheFull.reverse.drop 500 := by
    rw [hrun List.reverse, hins List.reverse]
    exact revDrop_eq cacheFull (fingerprint (List.replicate 1001 'a')) cacheFull_length
  have hidstate : runTexts id 1 [] [] evictionWitnessTexts =
      cacheFull.drop 501 ++ [fingerprint (List.replicate 1001 'a')] := by
    rw [hrun id, hins id]
    show (cacheFull ++ [fingerprint (List.replicate 1001 'a')]).drop
        ((cacheFull ++ [fingerprint (List.replicate 1001 'a')]).length - 500) =
      cacheFull.drop 501 ++ [fingerprint (List.replicate 1001 'a')]
    exact idDrop_eq cacheFull (fingerprint (List.replicate 1001 'a')) cacheFull_length
  refine ⟨fun s => List.reverse_perm s, ?_, ?_, ?_⟩
  · rw [hrevstate]
    simp [cacheFull_length]
  · rw [hrevstate]
    intro hmem
    exact hfresh (List.mem_reverse.mp (List.mem_of_mem_drop hmem))
  · rw [hidstate]
    exact List.mem_append_right _ (List.mem_singleton_self _)

/-! ## Summary length bound (C2) -/

/-- The truncation clamp never exceeds the maximum plus the ellipsis. -/
theorem clampSummary_length_le (m : Nat) (s : List Char) :
    (clampSummary m s).length ≤ m + 3 := by
  unfold clampSummary
  split
  · simp only [List.length_append, List.length_take, ellipsis, List.length_cons,
      List.length_nil]
    omega
  · rename_i h
    simp only [not_lt] at h
    omega

/-- The rule-based summarizer respects the length bound. -/
theorem simpleSummarize_length_le (cfg : Config) (t : List Char) :
    (simpleSummarize cfg t).length ≤ cfg.maxSummaryLength + 3 := by
  unfold simpleSummarize
  dsimp only
  split
  · simp only [List.length_append, List.length_take, ellipsis, List.length_cons,
      List.length_nil]
    omega
  · exact clampSummary_length_le _ _
  · exact clampSummary_length_le _ _
  · exact clampSummary_length_le _ _

/-- C2 counterexample: 160 identical letters survive cleaning
unchanged, land in the leave-as-is middle band of `summarize_text`
(its length is at most `2 × maxSummaryLength`), and are returned
unchanged — exceeding `maxSummaryLength + len(ellipsis)`. -/
theorem summary_length_bound_counterexample :
    cfgDefault.maxSummaryLength + ellipsis.length <
      (summarizeText cfgDefault Provider.simple none (List.replicate 160 'a')).length := by
  decide

/-- C2 amended: whenever `should_summarize` accepts the cleaned text,
every provider path yields a summary of length at most
`maxSummaryLength + len(ellipsis)`; otherwise `summarize_text` returns
the empty string or the cleaned text unchanged (which may exceed the
bound). -/
theorem summary_length_bound (cfg : Config) (prov : Provider) (resp : Option (List Char))
    (t : List Char) :
    (shouldSummarize cfg (cleanText t) = true →
      (summarizeText cfg prov resp t).length ≤ cfg.maxSummaryLength + 3) ∧
    (shouldSummarize cfg (cleanText t) = false →
      summarizeText cfg prov resp t = [] ∨ summarizeText cfg prov resp t = cleanText t) := by
  constructor
  · intro h
    unfold summarizeText
    by_cases h0 : pyStrip t = []
    · simp [h0]
    · simp only [if_neg h0, h, Bool.not_true, Bool.false_eq_true, if_false]
      cases prov with
      | simple => exact simpleSummarize_length_le cfg (cleanText t)
      | openai =>
        cases resp with
        | none => simpa [aiSummarize] using simpleSummarize_length_le cfg (cleanText t)
        | some r =>
          show (if clampSummary cfg.maxSummaryLength (pyStrip r) = []
              then simpleSummarize cfg (cleanText t)
              else clampSummary cfg.maxSummaryLength (pyStrip r)).length ≤
            cfg.maxSummaryLength + 3
          split
          · exact simpleSummarize_length_le cfg (cleanText t)
          · exact clampSummary_length_le _ _
      | ollama =>
        cases resp with
        | none => simpa [ollamaSummarize] using simpleSummarize_length_le cfg (cleanText t)
        | some r =>
          show (if clampSummary cfg.maxSummaryLength (pyStrip r) = []
              then simpleSummarize cfg (cleanText t)
              else clampSummary cfg.maxSummaryLength (pyStrip r)).length ≤
            cfg.maxSummaryLength + 3
          split
          · exact simpleSummarize_length_le cfg (cleanText t)
          · exact clampSummary_length_le _ _
  · intro h
    unfold summarizeText
    by_cases h0 : pyStrip t = []
    · simp [h0]
    · simp [h0, h]

/-- Witness for C2 (amended): a small configuration where
summarization does trigger and the bound holds. -/
theorem summary_length_bound_witness :
    shouldSummarize ⟨true, 1, 5⟩ (cleanText "abcdefghijklm".toList) = true ∧
      (summarizeText ⟨true, 1, 5⟩ Provider.simple none "abcdefghijklm".toList).length ≤
        (5 : Nat) + 3 :=
  ⟨by decide,
    (summary_length_bound ⟨true, 1, 5⟩ Provider.simple none "abcdefghijklm".toList).1
      (by decide)⟩

/-! ## Rule-based strategy steps (C5) -/

/-- C5 counterexample: on `"abcdefghij."` the only fragment strips to
exactly 10 characters.  The code discards it (it keeps only fragments
*longer* than 10) and falls into the no-meaningful-sentence branch,
returning `"abcdefghij...."`; the claim's algorithm (discard fragments
*shorter* than 10) keeps it and returns `"abcdefghij"` verbatim. -/
theorem rule_based_steps_counterexample :
    simpleSummarize cfgDefault "abcdefghij.".toList = "abcdefghij....".toList ∧
      simpleSummarizeSpec cfgDefault "abcdefghij.".toList = "abcdefghij".toList ∧
      simpleSummarize cfgDefault "abcdefghij.".toList ≠
        simpleSummarizeSpec cfgDefault "abcdefghij.".toList := by
  decide

/-- C5 amended: `simple_summarize` follows exactly the claimed steps
with the filter boundary corrected to "discard fragments of at most 10
characters after trimming". -/
theorem rule_based_steps (cfg : Config) (t : List Char) :
    simpleSummarize cfg t = simpleSummarizeSpecAmended cfg t := by
  suffices h : ∀ m : List (List Char),
      (match m with
       | [] => t.take cfg.maxSummaryLength ++ ellipsis
       | [s] => clampSummary cfg.maxSummaryLength s
       | [s1, s2] => clampSummary cfg.maxSummaryLength (s1 ++ ('.' :: ' ' :: []) ++ s2)
       | s1 :: _ :: _ :: _ =>
         clampSummary cfg.maxSummaryLength
           (s1 ++ ('.' :: ' ' :: '.' :: '.' :: '.' :: ' ' :: []) ++ m.getLastD [])) =
      (if m.length = 0 then t.take cfg.maxSummaryLength ++ ellipsis
       else
         clampSummary cfg.maxSummaryLength
           (if m.length = 1 then m.headD []
            else if m.length = 2 then
              m.headD [] ++ ('.' :: ' ' :: []) ++ m.getLastD []
            else
              m.headD [] ++ ('.' :: ' ' :: '.' :: '.' :: '.' :: ' ' :: [])
                ++ m.getLastD [])) by
    exact h (((reSplitTerm t).map pyStrip).filter fun s => decide (10 < s.length))
  intro m
  match m with
  | [] => rfl
  | [s] => rfl
  | [s1, s2] => rfl
  | s1 :: s2 :: s3 :: rest =>
    simp only [List.length_cons]
    rw [if_neg (by omega), if_neg (by omega), if_neg (by omega)]
    simp

/-! ## Code-span tokens (C6) -/

/-- C6: the inline-code delimiter strip at summarizer.py line 60 runs
before the code-artifact substitutions of lines 67–68 and removes every
backtick pair, so `clean_text` never produces `[code block]` or
`[code]`: a fenced block and an inline span are reduced to their bare
contents. -/
theorem code_span_tokens_dead :
    cleanText "```print hi```".toList = "print hi".toList ∧
      containsL codeBlockTok (cleanText "```print hi```".toList) = false ∧
      cleanText "see `foo` now".toList = "see foo now".toList ∧
      containsL codeTok (cleanText "see `foo` now".toList) = false := by
  decide

/-! ## Voice terminal punctuation (C7) -/

/-- The final punctuation step of `process_for_voice`, in isolation:
its non-empty output always ends in a terminator. -/
theorem finalDot_getLast_term (s : List Char) (c : Char)
    (hc : (finalDot s).getLast? = some c) :
    isTerm c = true := by
  unfold finalDot at hc
  split at hc
  · rename_i heq
    rw [heq] at hc
    exact Option.noConfusion hc
  · rename_i d heq
    split at hc
    · rename_i hd
      rw [heq] at hc
      injection hc with h
      exact h ▸ hd
    · rw [List.getLast?_concat] at hc
      injection hc with h
      rw [← h]
      decide

/-- The final punctuation step appends `.` exactly when its input is
non-empty and does not already end in a terminator. -/
theorem finalDot_append_iff (s : List Char) :
    finalDot s = s ++ ['.'] ↔
      s ≠ [] ∧ ∀ c, s.getLast? = some c → isTerm c = false := by
  unfold finalDot
  split
  · rename_i heq
    have hnil : s = [] := List.getLast?_eq_none_iff.mp heq
    subst hnil
    simp
  · rename_i d heq
    have hne : s ≠ [] := by
      intro h
      rw [h] at heq
      exact Option.noConfusion heq
    split
    · rename_i hd
      constructor
      · intro h
        exact absurd (congrArg List.length h) (by simp)
      · intro ⟨_, hall⟩
        exact absurd (hall d heq) (by simp [hd])
    · rename_i hd
      refine ⟨fun _ => ⟨hne, fun c hc => ?_⟩, fun _ => rfl⟩
      rw [heq] at hc
      injection hc with h
      rw [← h]
      simpa using hd

/-- C7: whenever `process_for_voice` returns a non-empty string its
last character is a sentence terminator; the final `.` is appended
exactly when the preceding pipeline output is non-empty and does not
already end in a terminator; and empty input yields empty output. -/
theorem voice_terminal_punctuation (cfg : Config) (prov : Provider)
    (resp : Option (List Char)) (t : List Char) :
    (∀ c, (processForVoice cfg prov resp t).getLast? = some c → isTerm c = true) ∧
      (processForVoice cfg prov resp t = preVoice cfg prov resp t ++ ['.'] ↔
        preVoice cfg prov resp t ≠ [] ∧
          ∀ c, (preVoice cfg prov resp t).getLast? = some c → isTerm c = false) ∧
      (t = [] → processForVoice cfg prov resp t = []) := by
  refine ⟨fun c hc => finalDot_getLast_term (preVoice cfg prov resp t) c hc,
    finalDot_append_iff (preVoice cfg prov resp t), fun h => ?_⟩
  subst h
  have h1 : summarizeText cfg prov resp [] = [] := rfl
  have h2 : preVoice cfg prov resp [] = [] := by
    unfold preVoice
    rw [h1]
    rfl
  show finalDot (preVoice cfg prov resp []) = []
  rw [h2]
  rfl

/-- Witness for C7: a concrete short text ends in an appended `.`. -/
theorem voice_terminal_punctuation_witness : isTerm '.' = true :=
  (voice_terminal_punctuation cfgDefault Provider.simple none "hi".toList).1 '.'
    (by decide)

/-! ## Cleaner idempotence (C10) -/

/-- C10 counterexample: stripping the italic delimiters of
`"a * b * c"` leaves the double spaces `"a  b  c"`, which only a second
whitespace collapse removes, so `clean` is not idempotent. -/
theorem cleaner_idempotence_counterexample :
    cleanText (cleanText "a * b * c".toList) ≠ cleanText "a * b * c".toList ∧
      cleanText "a * b * c".toList = "a  b  c".toList ∧
      cleanText (cleanText "a * b * c".toList) = "a b c".toList := by
  decide

/-! ### Substring toolkit -/

theorem containsL_nil_pat (l : List Char) : containsL [] l = true := by
  cases l <;> simp [containsL, startsWithL]

theorem containsL_cons (p : List Char) (c : Char) (cs : List Char)
    (h : containsL p cs = true) : containsL p (c :: cs) = true := by
  simp [containsL, h]

theorem containsL_of_startsWith (p l : List Char) (h : startsWithL p l = true) :
    containsL p l = true := by
  cases l with
  | nil =>
    simp [containsL, h]
  | cons c cs => simp [containsL, h]

theorem containsL_append_left (p a l : List Char) (h : containsL p l = true) :
    containsL p (a ++ l) = true := by
  induction a with
  | nil => exact h
  | cons c cs ih => exact containsL_cons p c (cs ++ l) ih

theorem startsWithL_self_append (p l : List Char) : startsWithL p (p ++ l) = true := by
  induction p with
  | nil => rfl
  | cons c cs ih => simp [startsWithL, ih]

theorem startsWithL_length_le (p l : List Char) (h : startsWithL p l = true) :
    p.length ≤ l.length := by
  induction p generalizing l with
  | nil => simp
  | cons c cs ih =>
    cases l with
    | nil => exact absurd h (by simp [startsWithL])
    | cons x xs =>
      simp only [startsWithL, Bool.and_eq_true] at h
      simpa using ih xs h.2

theorem containsL_length_le (p l : List Char) (h : containsL p l = true) :
    p.length ≤ l.length := by
  induction l with
  | nil => simpa using startsWithL_length_le p [] h
  | cons c cs ih =>
    simp only [containsL, Bool.or_eq_true] at h
    rcases h with h | h
    · exact startsWithL_length_le p (c :: cs) h
    · exact Nat.le_trans (ih h) (by simp)

/-- A pattern not containing `d` ignores a leading `d`-run. -/
theorem containsL_replicate_append (p : List Char) (d : Char) (hp : ∀ x ∈ p, x ≠ d)
    (m : Nat) (b : List Char) :
    containsL p (List.replicate m d ++ b) = containsL p b := by
  induction m with
  | zero => rfl
  | succ n ih =>
    rw [List.replicate_succ, List.cons_append]
    cases hp' : p with
    | nil => simp [containsL_nil_pat]
    | cons q qs =>
      have hq : q ≠ d := hp q (by simp [hp'])
      simp only [containsL, startsWithL, hp']
      rw [← hp', ih]
      simp [hq]

/-! ### Pass no-ops under character absence -/

theorem boldStrip_id (l : List Char) (h : '*' ∉ l) : boldAux .out l = l := by
  induction l with
  | nil => rfl
  | cons c cs ih =>
    have hc : c ≠ '*' := fun he => h (he ▸ List.mem_cons_self c cs)
    simp only [boldAux, if_neg hc]
    rw [ih fun hm => h (List.mem_cons_of_mem c hm)]

theorem subDelim_id (d : Char) (l : List Char) (h : d ∉ l) : subDelimAux d none l = l := by
  induction l with
  | nil => rfl
  | cons c cs ih =>
    have hc : c ≠ d := fun he => h (he ▸ List.mem_cons_self c cs)
    simp only [subDelimAux, if_neg hc]
    rw [ih fun hm => h (List.mem_cons_of_mem c hm)]

theorem headerStrip_id (l : List Char) (h : '#' ∉ l) : headerAux .norm l = l := by
  induction l with
  | nil => rfl
  | cons c cs ih =>
    have hc : c ≠ '#' := fun he => h (he ▸ List.mem_cons_self c cs)
    simp only [headerAux, if_neg hc]
    rw [ih fun hm => h (List.mem_cons_of_mem c hm)]

theorem cbSub_id (l : List Char) (h : tick ∉ l) : cbAux .o0 l = l := by
  induction l with
  | nil => rfl
  | cons c cs ih =>
    have hc : c ≠ tick := fun he => h (he ▸ List.mem_cons_self c cs)
    simp only [cbAux, if_neg hc]
    rw [ih fun hm => h (List.mem_cons_of_mem c hm)]

theorem inlineSub_id (l : List Char) (h : tick ∉ l) : inlineAux none l = l := by
  induction l with
  | nil => rfl
  | cons c cs ih =>
    have hc : c ≠ tick := fun he => h (he ▸ List.mem_cons_self c cs)
    simp only [inlineAux, if_neg hc]
    rw [ih fun hm => h (List.mem_cons_of_mem c hm)]

/-! ### Whitespace collapse lemmas -/

/-- Characters of the whitespace collapse: non-whitespace characters of
the input, or the single space. -/
theorem wsAux_mem (l : List Char) (b : Bool) (c : Char) (h : c ∈ wsAux b l) :
    (c ∈ l ∧ pyIsSpace c = false) ∨ c = ' ' := by
  induction l generalizing b with
  | nil => exact absurd h (by simp [wsAux])
  | cons x xs ih =>
    by_cases hx : pyIsSpace x = true
    · cases b with
      | true =>
        simp only [wsAux, hx, if_true] at h
        rcases ih true h with ⟨hm, hw⟩ | he
        · exact Or.inl ⟨List.mem_cons_of_mem x hm, hw⟩
        · exact Or.inr he
      | false =>
        simp only [wsAux, hx, if_true] at h
        rcases List.mem_cons.mp h with he | h2
        · exact Or.inr he
        · rcases ih true h2 with ⟨hm, hw⟩ | he
          · exact Or.inl ⟨List.mem_cons_of_mem x hm, hw⟩
          · exact Or.inr he
    · simp only [wsAux, hx, if_false] at h
      rcases List.mem_cons.mp h with he | h2
      · exact Or.inl ⟨he ▸ List.mem_cons_self x xs, he ▸ (by simpa using hx)⟩
      · rcases ih false h2 with ⟨hm, hw⟩ | he
        · exact Or.inl ⟨List.mem_cons_of_mem x hm, hw⟩
        · exact Or.inr he

/-- A whitespace-free prefix of the whitespace collapse (in scanning
state) is a prefix of the input. -/
theorem wsAux_startsWith (p : List Char) (hp : ∀ x ∈ p, pyIsSpace x = false) :
    ∀ l, startsWithL p (wsAux false l) = true → startsWithL p l = true := by
  induction p with
  | nil => intro l _; rfl
  | cons q qs ih =>
    intro l h
    cases l with
    | nil => exact absurd h (by simp [wsAux, startsWithL])
    | cons x xs =>
      by_cases hx : pyIsSpace x = true
      · simp only [wsAux, hx, if_true, startsWithL, Bool.and_eq_true] at h
        have hq : q = ' ' := of_decide_eq_true h.1
        have hnw := hp q (List.mem_cons_self q qs)
        rw [hq] at hnw
        exact absurd hnw (by decide)
      · simp only [wsAux, hx, if_false, startsWithL, Bool.and_eq_true] at h
        simp only [startsWithL, Bool.and_eq_true]
        exact ⟨h.1, ih (fun x hm => hp x (List.mem_cons_of_mem q hm)) xs h.2⟩

/-- A whitespace-free substring of the whitespace collapse is a
substring of the input. -/
theorem wsAux_containsL (p : List Char) (hp : ∀ x ∈ p, pyIsSpace x = false) :
    ∀ l b, containsL p (wsAux b l) = true → containsL p l = true := by
  intro l
  induction l with
  | nil =>
    intro b h
    cases p with
    | nil => exact containsL_nil_pat []
    | cons q qs => exact absurd h (by simp [wsAux, containsL, startsWithL])
  | cons x xs ih =>
    intro b h
    by_cases hx : pyIsSpace x = true
    · cases b with
      | true =>
        simp only [wsAux, hx, if_true] at h
        exact containsL_cons p x xs (ih true h)
      | false =>
        simp only [wsAux, hx, if_true] at h
        simp only [containsL, Bool.or_eq_true] at h
        rcases h with h | h
        · cases p with
          | nil => exact containsL_nil_pat _
          | cons q qs =>
            simp only [startsWithL, Bool.and_eq_true] at h
            have hq : q = ' ' := of_decide_eq_true h.1
            have hnw := hp q (List.mem_cons_self q qs)
            rw [hq] at hnw
            exact absurd hnw (by decide)
        · exact containsL_cons p x xs (ih true h)
    · simp only [wsAux, hx, if_false] at h
      simp only [containsL, Bool.or_eq_true] at h
      rcases h with h | h
      · cases p with
        | nil => exact containsL_nil_pat _
        | cons q qs =>
          simp only [startsWithL, Bool.and_eq_true] at h
          refine containsL_of_startsWith _ _ ?_
          simp only [startsWithL, Bool.and_eq_true]
          exact ⟨h.1, wsAux_startsWith qs
            (fun y hm => hp y (List.mem_cons_of_mem q hm)) xs h.2⟩
      · exact containsL_cons p x xs (ih false h)

/-- The skipping state of the collapse resumes with a non-space
character (or nothing). -/
theorem wsAux_true_head (l : List Char) :
    wsAux true l = [] ∨ ∃ d ds, wsAux true l = d :: ds ∧ pyIsSpace d = false := by
  induction l with
  | nil => exact Or.inl rfl
  | cons x xs ih =>
    by_cases hx : pyIsSpace x = true
    · simpa only [wsAux, hx, if_true] using ih
    · exact Or.inr ⟨x, wsAux false xs, by simp [wsAux, hx], by simpa using hx⟩

/-- The whitespace collapse never emits two adjacent spaces. -/
theorem wsAux_no_double (l : List Char) : ∀ b,
    containsL (' ' :: ' ' :: []) (wsAux b l) = false := by
  induction l with
  | nil => intro b; rfl
  | cons x xs ih =>
    intro b
    by_cases hx : pyIsSpace x = true
    · cases b with
      | true => simpa only [wsAux, hx, if_true] using ih true
      | false =>
        simp only [wsAux, hx, if_true, containsL, Bool.or_eq_true, startsWithL]
        rw [ih true]
        simp only [Bool.or_false]
        rcases wsAux_true_head xs with hnil | ⟨d, ds, hd, hdw⟩
        · simp [hnil, startsWithL]
        · have : (' ' = d) = False := by
            simp only [eq_iff_iff, iff_false]
            intro he
            rw [← he] at hdw
            exact absurd hdw (by simp [pyIsSpace])
          simp [hd, startsWithL, this]
    · simp only [wsAux, hx, if_false, containsL, Bool.or_eq_true, startsWithL]
      rw [ih false]
      have : (' ' = x) = False := by
        simp only [eq_iff_iff, iff_false]
        intro he
        rw [← he] at hx
        exact absurd (by simp [pyIsSpace] : pyIsSpace ' ' = true) hx
      simp [this]

/-- A string whose whitespace is only isolated single spaces is a fixed
point of the whitespace collapse. -/
theorem wsAux_fixed : ∀ l : List Char,
    (∀ x ∈ l, pyIsSpace x = true → x = ' ') →
    containsL (' ' :: ' ' :: []) l = false →
    wsAux false l = l ∧
      ((∀ c, l.head? = some c → pyIsSpace c = false) → wsAux true l = l) := by
  intro l
  induction l with
  | nil => exact fun _ _ => ⟨rfl, fun _ => rfl⟩
  | cons x xs ih =>
    intro hall hdd
    have hall' : ∀ y ∈ xs, pyIsSpace y = true → y = ' ' :=
      fun y hm => hall y (List.mem_cons_of_mem x hm)
    have hdd' : containsL (' ' :: ' ' :: []) xs = false := by
      cases hxs : containsL (' ' :: ' ' :: []) xs
      · rfl
      · exact absurd (containsL_cons _ x xs hxs) (by simp [hdd])
    obtain ⟨ih1, ih2⟩ := ih hall' hdd'
    constructor
    · by_cases hx : pyIsSpace x = true
      · have hxsp : x = ' ' := hall x (List.mem_cons_self x xs) hx
        simp only [wsAux, hx, if_true]
        have hxs_head : ∀ c, xs.head? = some c → pyIsSpace c = false := by
          intro c hc
          cases xs with
          | nil => cases hc
          | cons y ys =>
            have hyc : y = c := by injection hc
            cases hcb : pyIsSpace c with
            | false => rfl
            | true =>
              have hcsp : c = ' ' :=
                hall c (hyc ▸ List.mem_cons_of_mem x (List.mem_cons_self y ys)) hcb
              have hsw : startsWithL (' ' :: ' ' :: []) (x :: y :: ys) = true := by
                simp [startsWithL, hxsp, hyc, hcsp]
              exact absurd (containsL_of_startsWith _ _ hsw) (by simp [hdd])
        have hws : wsAux true xs = xs := ih2 hxs_head
        simp [wsAux, hx, hws, hxsp]
      · simp [wsAux, hx, ih1]
    · intro hhead
      have hx : pyIsSpace x = false := hhead x rfl
      simp [wsAux, hx, ih1]

/-! ### Run collapse lemmas -/

theorem replicate_succ_append {α : Type} (k : Nat) (d : α) (xs : List α) :
    List.replicate (k + 1) d ++ xs = List.replicate k d ++ d :: xs := by
  induction k with
  | zero => rfl
  | succ n ih =>
    show d :: List.replicate (n + 1) d ++ xs = d :: List.replicate n d ++ d :: xs
    simp only [List.cons_append]
    rw [ih]

theorem crAux_emit_eq (d : Char) (lim repN k : Nat) :
    (if k = 0 then [] else List.replicate (if lim ≤ k then repN else k) d) =
      List.replicate (if k = 0 then 0 else if lim ≤ k then repN else k) d := by
  by_cases hk : k = 0
  · simp [hk]
  · simp [hk]

theorem containsL_false_of_long (p l : List Char) (h : l.length < p.length) :
    containsL p l = false := by
  cases hc : containsL p l
  · rfl
  · exact absurd (containsL_length_le p l hc) (by omega)

/-- Characters of the run collapse: input characters or `d`. -/
theorem crAux_mem (d : Char) (lim repN : Nat) :
    ∀ (l : List Char) (k : Nat) (c : Char), c ∈ crAux d lim repN k l → c ∈ l ∨ c = d := by
  intro l
  induction l with
  | nil =>
    intro k c h
    simp only [crAux, crAux_emit_eq] at h
    exact Or.inr (List.eq_of_mem_replicate h)
  | cons x xs ih =>
    intro k c h
    by_cases hx : x = d
    · simp only [crAux, if_pos hx] at h
      rcases ih (k + 1) c h with hm | he
      · exact Or.inl (List.mem_cons_of_mem x hm)
      · exact Or.inr he
    · simp only [crAux, if_neg hx, crAux_emit_eq] at h
      rcases List.mem_append.mp h with hrep | hrest
      · exact Or.inr (List.eq_of_mem_replicate hrep)
      · rcases List.mem_cons.mp hrest with he | hm
        · exact Or.inl (he ▸ List.mem_cons_self x xs)
        · rcases ih 0 c hm with hm2 | he2
          · exact Or.inl (List.mem_cons_of_mem x hm2)
          · exact Or.inr he2

/-- With a pending run, the collapse output is empty or starts with `d`. -/
theorem crAux_head_d (d : Char) (lim repN : Nat) (hrep : 1 ≤ repN) :
    ∀ (l : List Char) (k : Nat), 1 ≤ k →
      crAux d lim repN k l = [] ∨ ∃ tl, crAux d lim repN k l = d :: tl := by
  have hemit : ∀ k : Nat, 1 ≤ k → ∃ m,
      (if k = 0 then [] else List.replicate (if lim ≤ k then repN else k) d) =
        d :: List.replicate m d := by
    intro k hk
    rw [if_neg (by omega)]
    refine ⟨(if lim ≤ k then repN else k) - 1, ?_⟩
    have hpos : 1 ≤ (if lim ≤ k then repN else k) := by split <;> omega
    conv =>
      lhs
      rw [show (if lim ≤ k then repN else k) = ((if lim ≤ k then repN else k) - 1) + 1 by omega]
    rw [List.replicate_succ]
  intro l
  induction l with
  | nil =>
    intro k hk
    obtain ⟨m, hm⟩ := hemit k hk
    exact Or.inr ⟨List.replicate m d, by simp only [crAux, hm]⟩
  | cons x xs ih =>
    intro k hk
    by_cases hx : x = d
    · simp only [crAux, if_pos hx]
      exact ih (k + 1) (by omega)
    · obtain ⟨m, hm⟩ := hemit k hk
      simp only [crAux, if_neg hx, hm]
      exact Or.inr ⟨List.replicate m d ++ x :: crAux d lim repN 0 xs, rfl⟩

/-- A `d`-free prefix of the collapse (in scanning state) is a prefix
of the input. -/
theorem crAux_startsWith (d : Char) (lim repN : Nat) (hrep : 1 ≤ repN) :
    ∀ (l : List Char) (p : List Char), (∀ x ∈ p, x ≠ d) →
      startsWithL p (crAux d lim repN 0 l) = true → startsWithL p l = true := by
  intro l
  induction l with
  | nil =>
    intro p hp h
    cases p with
    | nil => rfl
    | cons q qs => exact absurd h (by simp [crAux, startsWithL])
  | cons x xs ih =>
    intro p hp h
    by_cases hx : x = d
    · simp only [crAux, if_pos hx] at h
      cases p with
      | nil => rfl
      | cons q qs =>
        rcases crAux_head_d d lim repN hrep xs 1 (by omega) with hnil | ⟨tl, htl⟩
        · rw [hnil] at h
          exact absurd h (by simp [startsWithL])
        · rw [htl] at h
          simp only [startsWithL, Bool.and_eq_true] at h
          exact absurd (of_decide_eq_true h.1) (hp q (List.mem_cons_self q qs))
    · simp only [crAux, if_neg hx, if_pos rfl, List.nil_append] at h
      cases p with
      | nil => rfl
      | cons q qs =>
        simp only [startsWithL, Bool.and_eq_true] at h ⊢
        exact ⟨h.1, ih qs (fun y hm => hp y (List.mem_cons_of_mem q hm)) h.2⟩

/-- A `d`-free substring of the collapse is a substring of the input
(with the pending run restored). -/
theorem crAux_containsL (d : Char) (lim repN : Nat) (hrep : 1 ≤ repN)
    (p : List Char) (hp : ∀ x ∈ p, x ≠ d) :
    ∀ (l : List Char) (k : Nat), containsL p (crAux d lim repN k l) = true →
      containsL p (List.replicate k d ++ l) = true := by
  intro l
  induction l with
  | nil =>
    intro k h
    simp only [crAux, crAux_emit_eq] at h
    have h2 : containsL p (List.replicate (if k = 0 then 0 else if lim ≤ k then repN else k) d
        ++ []) = true := by
      rw [List.append_nil]
      exact h
    rw [containsL_replicate_append p d hp] at h2
    cases p with
    | nil => exact containsL_nil_pat _
    | cons q qs => exact absurd h2 (by simp [containsL, startsWithL])
  | cons x xs ih =>
    intro k h
    by_cases hx : x = d
    · simp only [crAux, if_pos hx] at h
      have := ih (k + 1) h
      rw [replicate_succ_append] at this
      exact hx ▸ this
    · simp only [crAux, if_neg hx, crAux_emit_eq] at h
      rw [containsL_replicate_append p d hp] at h
      rw [show List.replicate k d ++ x :: xs =
        List.replicate k d ++ (x :: xs) from rfl, containsL_replicate_append p d hp]
      simp only [containsL, Bool.or_eq_true] at h ⊢
      rcases h with h | h
      · cases p with
        | nil => exact Or.inl rfl
        | cons q qs =>
          simp only [startsWithL, Bool.and_eq_true] at h ⊢
          exact Or.inl ⟨h.1, crAux_startsWith d lim repN hrep xs qs
            (fun y hm => hp y (List.mem_cons_of_mem q hm)) h.2⟩
      · have := ih 0 h
        rw [List.replicate, List.nil_append] at this
        exact Or.inr this

/-- A string with no `d`-run of length `bound + 1`, where runs up to
`bound` are fixed by the replacement rule, is a fixed point of the
collapse. -/
theorem crAux_fixed (d : Char) (lim repN bound : Nat)
    (hb : ∀ j, j ≤ bound → (if lim ≤ j then repN else j) = j) :
    ∀ (l : List Char) (k : Nat), k ≤ bound →
      containsL (List.replicate (bound + 1) d) (List.replicate k d ++ l) = false →
      crAux d lim repN k l = List.replicate k d ++ l := by
  have hemit : ∀ k : Nat, k ≤ bound →
      (if k = 0 then [] else List.replicate (if lim ≤ k then repN else k) d) =
        List.replicate k d := by
    intro k hk
    by_cases h0 : k = 0
    · simp [h0]
    · rw [if_neg h0, hb k hk]
  intro l
  induction l with
  | nil =>
    intro k hk _
    simp only [crAux, hemit k hk, List.append_nil]
  | cons x xs ih =>
    intro k hk hcon
    by_cases hx : x = d
    · rw [hx]
      rw [hx] at hcon
      have hcon' : containsL (List.replicate (bound + 1) d)
          (List.replicate (k + 1) d ++ xs) = false := by
        rw [replicate_succ_append]
        exact hcon
      have hk1 : k + 1 ≤ bound := by
        by_contra hgt
        have hkb : k + 1 = bound + 1 := by omega
        rw [hkb] at hcon'
        rw [containsL_of_startsWith _ _ (startsWithL_self_append _ xs)] at hcon'
        exact Bool.noConfusion hcon'
      simp only [crAux, if_pos rfl]
      rw [ih (k + 1) hk1 hcon', replicate_succ_append]
      simp
    · simp only [crAux, if_neg hx, hemit k hk]
      have hxs : containsL (List.replicate (bound + 1) d) xs = false := by
        cases hc : containsL (List.replicate (bound + 1) d) xs
        · rfl
        · have : containsL (List.replicate (bound + 1) d)
              (List.replicate k d ++ x :: xs) = true :=
            containsL_append_left _ _ _ (containsL_cons _ x xs hc)
          rw [this] at hcon
          exact Bool.noConfusion hcon
      have h0 : crAux d lim repN 0 xs = xs := ih 0 (by omega) hxs
      rw [h0]

/-- A `d`-free pattern cannot start inside a bounded `d`-run followed
by a non-`d` character. -/
theorem startsWith_replicate_blocked (d x : Char) (hx : x ≠ d) :
    ∀ (n m : Nat) (rest : List Char), m < n →
      startsWithL (List.replicate n d) (List.replicate m d ++ x :: rest) = false := by
  intro n
  induction n with
  | zero => intro m rest h; omega
  | succ n ih =>
    intro m rest h
    cases m with
    | zero =>
      simp only [List.replicate, List.nil_append, List.replicate_succ, startsWithL]
      have : (d = x) = False := by
        simp only [eq_iff_iff, iff_false]
        exact fun he => hx he.symm
      simp [this]
    | succ m2 =>
      show (decide (d = d) &&
        startsWithL (List.replicate n d) (List.replicate m2 d ++ x :: rest)) = false
      rw [ih m2 rest (by omega)]
      simp

/-- A long `d`-run pattern skips a short `d`-run followed by a
non-`d` character. -/
theorem containsL_run_skip (d x : Char) (hx : x ≠ d) :
    ∀ (m n : Nat) (rest : List Char), m < n →
      containsL (List.replicate n d) (List.replicate m d ++ x :: rest) =
        containsL (List.replicate n d) rest := by
  intro m
  induction m with
  | zero =>
    intro n rest h
    have hb0 : startsWithL (List.replicate n d) (x :: rest) = false :=
      startsWith_replicate_blocked d x hx n 0 rest h
    show (startsWithL (List.replicate n d) (x :: rest) ||
      containsL (List.replicate n d) rest) = containsL (List.replicate n d) rest
    rw [hb0]
    simp
  | succ m2 ih =>
    intro n rest h
    obtain ⟨n2, rfl⟩ : ∃ n2, n = n2 + 1 := ⟨n - 1, by omega⟩
    have hstep : List.replicate (m2 + 1) d ++ x :: rest =
        d :: (List.replicate m2 d ++ x :: rest) := by
      rw [List.replicate_succ, List.cons_append]
    rw [hstep]
    have hsw : startsWithL (List.replicate (n2 + 1) d)
        (d :: (List.replicate m2 d ++ x :: rest)) = false := by
      show (decide (d = d) &&
        startsWithL (List.replicate n2 d) (List.replicate m2 d ++ x :: rest)) = false
      rw [startsWith_replicate_blocked d x hx n2 m2 rest (by omega)]
      simp
    show (startsWithL (List.replicate (n2 + 1) d)
        (d :: (List.replicate m2 d ++ x :: rest)) ||
      containsL (List.replicate (n2 + 1) d) (List.replicate m2 d ++ x :: rest)) =
        containsL (List.replicate (n2 + 1) d) rest
    rw [hsw, ih (n2 + 1) rest (by omega)]
    simp

/-- The collapse output never contains a `d`-run of length
`bound + 1`, provided the replacement stays within `bound` and the
trigger is at most `bound + 1`. -/
theorem crAux_no_run (d : Char) (lim repN bound : Nat)
    (hrepb : repN ≤ bound) (hlim : lim ≤ bound + 1) :
    ∀ (l : List Char) (k : Nat),
      containsL (List.replicate (bound + 1) d) (crAux d lim repN k l) = false := by
  have hemitlen : ∀ k : Nat, (if k = 0 then 0 else if lim ≤ k then repN else k) ≤ bound := by
    intro k
    by_cases h0 : k = 0
    · simp [h0]
    · rw [if_neg h0]
      split <;> omega
  intro l
  induction l with
  | nil =>
    intro k
    simp only [crAux, crAux_emit_eq]
    exact containsL_false_of_long _ _ (by
      simp only [List.length_replicate]
      exact Nat.lt_succ_of_le (hemitlen k))
  | cons x xs ih =>
    intro k
    by_cases hx : x = d
    · simp only [crAux, if_pos hx]
      exact ih (k + 1)
    · simp only [crAux, if_neg hx, crAux_emit_eq]
      rw [containsL_run_skip d x (fun he => hx he) _ _ _
        (Nat.lt_succ_of_le (hemitlen k))]
      exact ih 0

/-! ### URL rewrite lemmas -/

theorem containsL_tail_false (p : List Char) (a : Char) (l : List Char)
    (h : containsL p (a :: l) = false) : containsL p l = false := by
  cases hc : containsL p l
  · rfl
  · rw [containsL_cons p a l hc] at h
    exact Bool.noConfusion h

/-- On text without the substring `http`, the URL scanner re-emits its
partial-match states verbatim. -/
theorem urlAux_id : ∀ l : List Char,
    (containsL ('h' :: 't' :: 't' :: 'p' :: []) l = false → urlAux .n l = l) ∧
    (containsL ('h' :: 't' :: 't' :: 'p' :: []) ('h' :: l) = false →
      urlAux .uh l = 'h' :: l) ∧
    (containsL ('h' :: 't' :: 't' :: 'p' :: []) ('h' :: 't' :: l) = false →
      urlAux .uht l = 'h' :: 't' :: l) ∧
    (containsL ('h' :: 't' :: 't' :: 'p' :: []) ('h' :: 't' :: 't' :: l) = false →
      urlAux .uhtt l = 'h' :: 't' :: 't' :: l) := by
  intro l
  induction l with
  | nil => exact ⟨fun _ => rfl, fun _ => rfl, fun _ => rfl, fun _ => rfl⟩
  | cons c cs ih =>
    obtain ⟨ih1, ih2, ih3, ih4⟩ := ih
    refine ⟨?_, ?_, ?_, ?_⟩
    · intro hcon
      by_cases hc : c = 'h'
      · simp only [urlAux, if_pos hc]
        rw [ih2 (hc ▸ hcon), hc]
      · simp only [urlAux, if_neg hc]
        rw [ih1 (containsL_tail_false _ _ _ hcon)]
    · intro hcon
      by_cases hc : c = 't'
      · simp only [urlAux, if_pos hc]
        rw [ih3 (hc ▸ hcon), hc]
      · simp only [urlAux, if_neg hc]
        have htail : containsL ('h' :: 't' :: 't' :: 'p' :: []) (c :: cs) = false :=
          containsL_tail_false _ _ _ hcon
        by_cases hch : c = 'h'
        · simp only [if_pos hch]
          rw [ih2 (hch ▸ htail), hch]
          rfl
        · simp only [if_neg hch]
          rw [ih1 (containsL_tail_false _ _ _ htail)]
          rfl
    · intro hcon
      by_cases hc : c = 't'
      · simp only [urlAux, if_pos hc]
        rw [ih4 (hc ▸ hcon), hc]
      · simp only [urlAux, if_neg hc]
        have htail : containsL ('h' :: 't' :: 't' :: 'p' :: []) (c :: cs) = false := by
          refine containsL_tail_false _ 't' _ (containsL_tail_false _ 'h' _ ?_)
          exact hcon
        by_cases hch : c = 'h'
        · simp only [if_pos hch]
          rw [ih2 (hch ▸ htail), hch]
          rfl
        · simp only [if_neg hch]
          rw [ih1 (containsL_tail_false _ _ _ htail)]
          rfl
    · intro hcon
      by_cases hc : c = 'p'
      · exfalso
        have hsw : startsWithL ('h' :: 't' :: 't' :: 'p' :: [])
            ('h' :: 't' :: 't' :: c :: cs) = true := by
          simp [startsWithL, hc]
        rw [containsL_of_startsWith _ _ hsw] at hcon
        exact Bool.noConfusion hcon
      · simp only [urlAux, if_neg hc]
        have htail : containsL ('h' :: 't' :: 't' :: 'p' :: []) (c :: cs) = false := by
          refine containsL_tail_false _ 't' _ (containsL_tail_false _ 't' _
            (containsL_tail_false _ 'h' _ ?_))
          exact hcon
        by_cases hch : c = 'h'
        · simp only [if_pos hch]
          rw [ih2 (hch ▸ htail), hch]
          rfl
        · simp only [if_neg hch]
          rw [ih1 (containsL_tail_false _ _ _ htail)]
          rfl

/-! ### Strip lemmas -/

theorem containsL_iff_startsWith (p l : List Char) :
    startsWithL p l = true ↔ p <+: l := by
  induction p generalizing l with
  | nil => simp [startsWithL, List.nil_prefix]
  | cons q qs ih =>
    cases l with
    | nil =>
      simp only [startsWithL]
      constructor
      · intro h
        exact Bool.noConfusion h
      · intro h
        exact absurd (List.IsPrefix.length_le h) (by simp)
    | cons c cs =>
      simp only [startsWithL, Bool.and_eq_true, decide_eq_true_eq, List.cons_prefix_cons]
      exact and_congr Iff.rfl (ih cs)

theorem containsL_iff_within (p l : List Char) : containsL p l = true ↔ p <:+: l := by
  induction l with
  | nil =>
    cases p with
    | nil => simp [containsL, startsWithL]
    | cons q qs => simp [containsL, startsWithL]
  | cons c cs ih =>
    simp only [containsL, Bool.or_eq_true, List.infix_cons_iff]
    exact or_congr (containsL_iff_startsWith p (c :: cs)) ih

/-- The strip is an infix of its input. -/
theorem pyStrip_within (l : List Char) : pyStrip l <:+: l := by
  unfold pyStrip
  have h1 : l.dropWhile pyIsSpace <:+ l := List.dropWhile_suffix pyIsSpace
  have h2 : (l.dropWhile pyIsSpace).reverse.dropWhile pyIsSpace <:+
      (l.dropWhile pyIsSpace).reverse := List.dropWhile_suffix pyIsSpace
  have h3 : ((l.dropWhile pyIsSpace).reverse.dropWhile pyIsSpace).reverse <+:
      l.dropWhile pyIsSpace := by
    have h4 := List.reverse_prefix.mpr h2
    rwa [List.reverse_reverse] at h4
  exact h3.isInfix.trans h1.isInfix

theorem pyStrip_mem (l : List Char) (c : Char) (h : c ∈ pyStrip l) : c ∈ l :=
  (pyStrip_within l).subset h

theorem pyStrip_containsL (p l : List Char) (h : containsL p (pyStrip l) = true) :
    containsL p l = true :=
  (containsL_iff_within p l).mpr
    (((containsL_iff_within p (pyStrip l)).mp h).trans (pyStrip_within l))

theorem dropWhile_head_not (p : Char → Bool) (l : List Char) (c : Char)
    (h : (l.dropWhile p).head? = some c) : p c = false := by
  induction l with
  | nil => exact absurd h (by simp)
  | cons x xs ih =>
    rw [List.dropWhile_cons] at h
    by_cases hx : p x = true
    · rw [if_pos hx] at h
      exact ih h
    · rw [if_neg hx] at h
      injection h with he
      rw [← he]
      simpa using hx

/-- A string whose first and last characters are not whitespace is a
fixed point of the strip. -/
theorem pyStrip_fixed (l : List Char)
    (hh : ∀ c, l.head? = some c → pyIsSpace c = false)
    (hl : ∀ c, l.getLast? = some c → pyIsSpace c = false) :
    pyStrip l = l := by
  have hdw : ∀ (x : List Char), (∀ c, x.head? = some c → pyIsSpace c = false) →
      x.dropWhile pyIsSpace = x := by
    intro x hx
    cases x with
    | nil => rfl
    | cons a as =>
      rw [List.dropWhile_cons, if_neg (by simp [hx a rfl])]
  unfold pyStrip
  rw [hdw l hh, hdw l.reverse (by
    intro c hc
    rw [List.head?_reverse] at hc
    exact hl c hc), List.reverse_reverse]

/-- The first character of the strip output is not whitespace. -/
theorem pyStrip_head (l : List Char) (c : Char)
    (h : (pyStrip l).head? = some c) : pyIsSpace c = false := by
  unfold pyStrip at h
  rw [List.head?_reverse] at h
  -- `h : getLast? of a non-empty suffix of (dropWhile ws l).reverse`
  have hsfx : (l.dropWhile pyIsSpace).reverse.dropWhile pyIsSpace <:+
      (l.dropWhile pyIsSpace).reverse := List.dropWhile_suffix pyIsSpace
  obtain ⟨pre, hpre⟩ := hsfx
  have hne : (l.dropWhile pyIsSpace).reverse.dropWhile pyIsSpace ≠ [] := by
    intro he
    rw [he] at h
    exact Option.noConfusion h
  have : ((l.dropWhile pyIsSpace).reverse).getLast? = some c := by
    rw [← hpre, List.getLast?_append_of_ne_nil pre hne]
    exact h
  rw [List.getLast?_reverse] at this
  exact dropWhile_head_not pyIsSpace l c this

/-- The last character of the strip output is not whitespace. -/
theorem pyStrip_getLast (l : List Char) (c : Char)
    (h : (pyStrip l).getLast? = some c) : pyIsSpace c = false := by
  unfold pyStrip at h
  rw [List.getLast?_reverse] at h
  exact dropWhile_head_not pyIsSpace _ c h

theorem pyStrip_idem (l : List Char) : pyStrip (pyStrip l) = pyStrip l :=
  pyStrip_fixed (pyStrip l) (pyStrip_head l) (pyStrip_getLast l)

/-! ### Assembly of the restricted idempotence -/

/-- On markup-free input, `clean_text` reduces to whitespace collapse,
punctuation collapse and strip. -/
theorem cleanText_eq_core (t : List Char) (ht : t ≠ [])
    (h1 : '*' ∉ t) (h2 : tick ∉ t) (h3 : '#' ∉ t)
    (h4 : containsL ('h' :: 't' :: 't' :: 'p' :: []) t = false) :
    cleanText t = cleanCore t := by
  have hw1 : '*' ∉ wsCollapse t := by
    intro hm
    rcases wsAux_mem t false '*' hm with ⟨hmem, _⟩ | he
    · exact h1 hmem
    · exact absurd he (by decide)
  have hw2 : tick ∉ wsCollapse t := by
    intro hm
    rcases wsAux_mem t false tick hm with ⟨hmem, _⟩ | he
    · exact h2 hmem
    · exact absurd he (by decide)
  have hw3 : '#' ∉ wsCollapse t := by
    intro hm
    rcases wsAux_mem t false '#' hm with ⟨hmem, _⟩ | he
    · exact h3 hmem
    · exact absurd he (by decide)
  have hw4 : containsL ('h' :: 't' :: 't' :: 'p' :: []) (wsCollapse t) = false := by
    cases hc : containsL ('h' :: 't' :: 't' :: 'p' :: []) (wsCollapse t)
    · rfl
    · rw [wsAux_containsL _ (by decide) t false hc] at h4
      exact Bool.noConfusion h4
  unfold cleanText cleanCore
  rw [if_neg ht]
  rw [show boldStrip (wsCollapse t) = wsCollapse t from boldStrip_id _ hw1]
  rw [show subDelim '*' (wsCollapse t) = wsCollapse t from subDelim_id '*' _ hw1]
  rw [show subDelim tick (wsCollapse t) = wsCollapse t from subDelim_id tick _ hw2]
  rw [show headerStrip (wsCollapse t) = wsCollapse t from headerStrip_id _ hw3]
  rw [show urlRewrite (wsCollapse t) = wsCollapse t from (urlAux_id (wsCollapse t)).1 hw4]
  rw [show codeBlockSub (wsCollapse t) = wsCollapse t from cbSub_id _ hw2]
  rw [show inlineCodeSub (wsCollapse t) = wsCollapse t from inlineSub_id _ hw2]

/-- Character provenance through the core pipeline. -/
theorem cleanCore_mem (t : List Char) (x : Char) (hx : x ∈ cleanCore t) :
    (x ∈ t ∧ pyIsSpace x = false) ∨ x = ' ' ∨ x = '.' ∨ x = '!' ∨ x = '?' := by
  have hq := pyStrip_mem _ x hx
  rcases crAux_mem '?' 2 1 _ 0 x hq with hb | he
  · rcases crAux_mem '!' 2 1 _ 0 x hb with hd | he
    · rcases crAux_mem '.' 3 3 _ 0 x hd with hw | he
      · rcases wsAux_mem t false x hw with ⟨hm, hnw⟩ | he
        · exact Or.inl ⟨hm, hnw⟩
        · exact Or.inr (Or.inl he)
      · exact Or.inr (Or.inr (Or.inl he))
    · exact Or.inr (Or.inr (Or.inr (Or.inl he)))
  · exact Or.inr (Or.inr (Or.inr (Or.inr he)))

/-- Substring reflection through the core pipeline, for patterns free
of whitespace and of the collapsed punctuation characters. -/
theorem cleanCore_containsL (t : List Char) (p : List Char)
    (hd : ∀ x ∈ p, x ≠ '.') (hb : ∀ x ∈ p, x ≠ '!') (hq : ∀ x ∈ p, x ≠ '?')
    (hw : ∀ x ∈ p, pyIsSpace x = false)
    (h : containsL p (cleanCore t) = true) : containsL p t = true := by
  have s1 := pyStrip_containsL p _ h
  have s2 : containsL p (bangCollapse (dotCollapse (wsCollapse t))) = true :=
    crAux_containsL '?' 2 1 (by omega) p hq _ 0 s1
  have s3 : containsL p (dotCollapse (wsCollapse t)) = true :=
    crAux_containsL '!' 2 1 (by omega) p hb _ 0 s2
  have s4 : containsL p (wsCollapse t) = true :=
    crAux_containsL '.' 3 3 (by omega) p hd _ 0 s3
  exact wsAux_containsL p hw t false s4

/-- Substring reflection down to the whitespace collapse only (for
patterns that may contain spaces). -/
theorem cleanCore_containsL_ws (t : List Char) (p : List Char)
    (hd : ∀ x ∈ p, x ≠ '.') (hb : ∀ x ∈ p, x ≠ '!') (hq : ∀ x ∈ p, x ≠ '?')
    (h : containsL p (cleanCore t) = true) : containsL p (wsCollapse t) = true := by
  have s1 := pyStrip_containsL p _ h
  have s2 : containsL p (bangCollapse (dotCollapse (wsCollapse t))) = true :=
    crAux_containsL '?' 2 1 (by omega) p hq _ 0 s1
  have s3 : containsL p (dotCollapse (wsCollapse t)) = true :=
    crAux_containsL '!' 2 1 (by omega) p hb _ 0 s2
  exact crAux_containsL '.' 3 3 (by omega) p hd _ 0 s3

/-- A fixed point of every pass is a fixed point of `clean_text`. -/
theorem cleanText_fixed (u : List Char)
    (hu1 : '*' ∉ u) (hu2 : tick ∉ u) (hu3 : '#' ∉ u)
    (hu4 : containsL ('h' :: 't' :: 't' :: 'p' :: []) u = false)
    (hws : wsAux false u = u)
    (hdot : crAux '.' 3 3 0 u = u) (hbang : crAux '!' 2 1 0 u = u)
    (hq : crAux '?' 2 1 0 u = u) (hstrip : pyStrip u = u) :
    cleanText u = u := by
  by_cases hu0 : u = []
  · rw [hu0]
    rfl
  · unfold cleanText
    rw [if_neg hu0]
    rw [show wsCollapse u = u from hws]
    rw [show boldStrip u = u from boldStrip_id u hu1]
    rw [show subDelim '*' u = u from subDelim_id '*' u hu1]
    rw [show subDelim tick u = u from subDelim_id tick u hu2]
    rw [show headerStrip u = u from headerStrip_id u hu3]
    rw [show urlRewrite u = u from (urlAux_id u).1 hu4]
    rw [show codeBlockSub u = u from cbSub_id u hu2]
    rw [show inlineCodeSub u = u from inlineSub_id u hu2]
    rw [show dotCollapse u = u from hdot]
    rw [show bangCollapse u = u from hbang]
    rw [show qCollapse u = u from hq]
    exact hstrip

/-- C10 amended: `clean_text` is idempotent on inputs free of emphasis
and code markup, header markers and URLs — no `*`, no backtick, no `#`,
and no occurrence of `http`.  (On general input it is not idempotent:
see the counterexample.) -/
theorem cleaner_idempotent_markupfree (t : List Char)
    (h1 : '*' ∉ t) (h2 : tick ∉ t) (h3 : '#' ∉ t)
    (h4 : containsL ('h' :: 't' :: 't' :: 'p' :: []) t = false) :
    cleanText (cleanText t) = cleanText t := by
  by_cases ht : t = []
  · rw [ht]
    rfl
  · rw [cleanText_eq_core t ht h1 h2 h3 h4]
    have hu1 : '*' ∉ cleanCore t := by
      intro hm
      rcases cleanCore_mem t '*' hm with ⟨hmem, _⟩ | he | he | he | he
      · exact h1 hmem
      all_goals exact absurd he (by decide)
    have hu2 : tick ∉ cleanCore t := by
      intro hm
      rcases cleanCore_mem t tick hm with ⟨hmem, _⟩ | he | he | he | he
      · exact h2 hmem
      all_goals exact absurd he (by decide)
    have hu3 : '#' ∉ cleanCore t := by
      intro hm
      rcases cleanCore_mem t '#' hm with ⟨hmem, _⟩ | he | he | he | he
      · exact h3 hmem
      all_goals exact absurd he (by decide)
    have hu4 : containsL ('h' :: 't' :: 't' :: 'p' :: []) (cleanCore t) = false := by
      cases hc : containsL ('h' :: 't' :: 't' :: 'p' :: []) (cleanCore t)
      · rfl
      · rw [cleanCore_containsL t _ (by decide) (by decide) (by decide) (by decide) hc] at h4
        exact Bool.noConfusion h4
    have hall : ∀ x ∈ cleanCore t, pyIsSpace x = true → x = ' ' := by
      intro x hx hws
      rcases cleanCore_mem t x hx with ⟨_, hnw⟩ | he | he | he | he
      · rw [hws] at hnw
        exact Bool.noConfusion hnw
      · exact he
      all_goals exact absurd (he ▸ hws) (by decide)
    have hdd : containsL (' ' :: ' ' :: []) (cleanCore t) = false := by
      cases hc : containsL (' ' :: ' ' :: []) (cleanCore t)
      · rfl
      · have h5 : containsL (' ' :: ' ' :: []) (wsAux false t) = true :=
          cleanCore_containsL_ws t _ (by decide) (by decide) (by decide) hc
        rw [wsAux_no_double t false] at h5
        exact Bool.noConfusion h5
    have h4dots : containsL ('.' :: '.' :: '.' :: '.' :: []) (cleanCore t) = false := by
      cases hc : containsL ('.' :: '.' :: '.' :: '.' :: []) (cleanCore t)
      · rfl
      · have s1 := pyStrip_containsL _ _ hc
        have s2 : containsL ('.' :: '.' :: '.' :: '.' :: [])
            (bangCollapse (dotCollapse (wsCollapse t))) = true :=
          crAux_containsL '?' 2 1 (by omega) _ (by decide) _ 0 s1
        have s3 : containsL (List.replicate 4 '.')
            (crAux '.' 3 3 0 (wsCollapse t)) = true :=
          crAux_containsL '!' 2 1 (by omega) _ (by decide) _ 0 s2
        rw [crAux_no_run '.' 3 3 3 (by omega) (by omega) (wsCollapse t) 0] at s3
        exact Bool.noConfusion s3
    have hbb : containsL ('!' :: '!' :: []) (cleanCore t) = false := by
      cases hc : containsL ('!' :: '!' :: []) (cleanCore t)
      · rfl
      · have s1 := pyStrip_containsL _ _ hc
        have s2 : containsL (List.replicate 2 '!')
            (crAux '!' 2 1 0 (dotCollapse (wsCollapse t))) = true :=
          crAux_containsL '?' 2 1 (by omega) _ (by decide) _ 0 s1
        rw [crAux_no_run '!' 2 1 1 (by omega) (by omega) _ 0] at s2
        exact Bool.noConfusion s2
    have hqq : containsL ('?' :: '?' :: []) (cleanCore t) = false := by
      cases hc : containsL ('?' :: '?' :: []) (cleanCore t)
      · rfl
      · have s1 : containsL (List.replicate 2 '?')
            (crAux '?' 2 1 0 (bangCollapse (dotCollapse (wsCollapse t)))) = true :=
          pyStrip_containsL _ _ hc
        rw [crAux_no_run '?' 2 1 1 (by omega) (by omega) _ 0] at s1
        exact Bool.noConfusion s1
    refine cleanText_fixed (cleanCore t) hu1 hu2 hu3 hu4
      ((wsAux_fixed (cleanCore t) hall hdd).1) ?_ ?_ ?_
      (pyStrip_idem (qCollapse (bangCollapse (dotCollapse (wsCollapse t)))))
    · exact crAux_fixed '.' 3 3 3 (by
        intro j hj
        split <;> omega) (cleanCore t) 0 (by omega) h4dots
    · exact crAux_fixed '!' 2 1 1 (by
        intro j hj
        split <;> omega) (cleanCore t) 0 (by omega) hbb
    · exact crAux_fixed '?' 2 1 1 (by
        intro j hj
        split <;> omega) (cleanCore t) 0 (by omega) hqq

/-- Witness for C10 (amended) at a concrete markup-free text. -/
theorem cleaner_idempotent_markupfree_witness :
    ('*' ∉ "hello..  world!! ok".toList ∧ tick ∉ "hello..  world!! ok".toList ∧
      '#' ∉ "hello..  world!! ok".toList ∧
      containsL ('h' :: 't' :: 't' :: 'p' :: []) "hello..  world!! ok".toList = false) ∧
    cleanText (cleanText "hello..  world!! ok".toList) =
      cleanText "hello..  world!! ok".toList :=
  ⟨⟨by decide, by decide, by decide, by decide⟩,
    cleaner_idempotent_markupfree "hello..  world!! ok".toList
      (by decide) (by decide) (by decide) (by decide)⟩

end EchoLink
